import Mathlib

/-!
Shallow embedding of rcalc (`src/main.rs`): an interactive arithmetic
evaluator over IEEE-754 doubles (f64) with an exact decimal formatter.

f64 values are modelled by the inductive `F64` (NaN, signed infinities,
and finite values `±m·2^e`); rounding a rational to the nearest double
(round-to-nearest, ties-to-even) is `f64ofPosParts`.  Rust's float
formatting (`Display` and `{:e}` produce the shortest decimal that parses
back to the same double; `{:.15}` rounds to 15 fractional digits, ties to
even) is modelled by a shortest-digits search whose success check is
exactly the round-trip property that defines Rust's output.
-/

-- The Batteries rational operations are `@[irreducible]`; restore default
-- reducibility so that concrete values can be evaluated by `decide`.
attribute [local semireducible] Rat.add Rat.mul Rat.sub Rat.inv Rat.ofScientific

set_option maxRecDepth 100000

deriving instance DecidableEq for Except

namespace RCalc

/-- Base-`b` digit count of `n`, fuel-based so that the kernel can evaluate
it (`lenBAux b fuel n` is the digit count of `n` provided `fuel ≥ n`). -/
def lenBAux (b : ℕ) : ℕ → ℕ → ℕ
  | 0, _ => 0
  | fuel+1, n => if n = 0 then 0 else lenBAux b fuel (n / b) + 1

/-- Number of base-`b` digits of `n` (0 for `n = 0`). -/
def natLenB (b n : ℕ) : ℕ := lenBAux b n n

theorem lenBAux_zero (b fuel : ℕ) : lenBAux b fuel 0 = 0 := by
  cases fuel <;> simp [lenBAux]

theorem lenBAux_spec (b : ℕ) (hb : 2 ≤ b) :
    ∀ fuel n, n ≤ fuel → 1 ≤ n →
      1 ≤ lenBAux b fuel n ∧ b ^ (lenBAux b fuel n - 1) ≤ n ∧ n < b ^ lenBAux b fuel n := by
  intro fuel
  induction fuel with
  | zero => intro n hn h1; omega
  | succ f ih =>
    intro n hn h1
    have hb0 : 0 < b := by omega
    rw [lenBAux, if_neg (by omega)]
    by_cases hq : n / b = 0
    · rw [hq, lenBAux_zero]
      refine ⟨by omega, by simpa using h1, ?_⟩
      have := (Nat.div_eq_zero_iff hb0).mp hq
      simpa using this
    · have hlt : n / b < n := Nat.div_lt_self (by omega) hb
      have hle : n / b ≤ f := by omega
      have hge : 1 ≤ n / b := Nat.pos_of_ne_zero hq
      obtain ⟨hL1, hlow, hhigh⟩ := ih (n / b) hle hge
      set L := lenBAux b f (n / b) with hL
      refine ⟨by omega, ?_, ?_⟩
      · have h1' : b ^ (L - 1) * b ≤ (n / b) * b := Nat.mul_le_mul_right b hlow
        have h2' : (n / b) * b ≤ n := Nat.div_mul_le_self n b
        have h3' : b ^ (L - 1) * b = b ^ L := by
          rw [← pow_succ]
          congr 1
          omega
        have h4' : b ^ L ≤ n := by
          calc b ^ L = b ^ (L - 1) * b := h3'.symm
            _ ≤ (n / b) * b := h1'
            _ ≤ n := h2'
        simpa using h4'
      · have h5' := (Nat.div_lt_iff_lt_mul hb0).mp hhigh
        calc n < b ^ L * b := h5'
        _ = b ^ (L + 1) := (pow_succ b L).symm

theorem natLenB_spec (b n : ℕ) (hb : 2 ≤ b) (h1 : 1 ≤ n) :
    1 ≤ natLenB b n ∧ b ^ (natLenB b n - 1) ≤ n ∧ n < b ^ natLenB b n :=
  lenBAux_spec b hb n n le_rfl h1

/-- Two to the integer power `k` as a rational, for an integer exponent `k`, computed with
kernel-friendly `Nat` powers. -/
def pow2z (k : ℤ) : ℚ :=
  if 0 ≤ k then (((2:ℕ) ^ k.toNat : ℕ) : ℚ) else (((2:ℕ) ^ (-k).toNat : ℕ) : ℚ)⁻¹

/-- Ten to the integer power `k` as a rational, for an integer exponent `k`. -/
def pow10z (k : ℤ) : ℚ :=
  if 0 ≤ k then (((10:ℕ) ^ k.toNat : ℕ) : ℚ) else (((10:ℕ) ^ (-k).toNat : ℕ) : ℚ)⁻¹

theorem pow2z_eq_zpow (k : ℤ) : pow2z k = (2:ℚ) ^ k := by
  unfold pow2z
  split
  · next h =>
    push_cast
    rw [← zpow_natCast, Int.toNat_of_nonneg h]
  · next h =>
    push_cast
    rw [← zpow_natCast, Int.toNat_of_nonneg (by omega : (0:ℤ) ≤ -k), ← zpow_neg, neg_neg]

theorem pow10z_eq_zpow (k : ℤ) : pow10z k = (10:ℚ) ^ k := by
  unfold pow10z
  split
  · next h =>
    push_cast
    rw [← zpow_natCast, Int.toNat_of_nonneg h]
  · next h =>
    push_cast
    rw [← zpow_natCast, Int.toNat_of_nonneg (by omega : (0:ℤ) ≤ -k), ← zpow_neg, neg_neg]

theorem pow2z_pos (k : ℤ) : 0 < pow2z k := by
  rw [pow2z_eq_zpow]; positivity

theorem pow10z_pos (k : ℤ) : 0 < pow10z k := by
  rw [pow10z_eq_zpow]; positivity

theorem pow2z_add (j k : ℤ) : pow2z (j + k) = pow2z j * pow2z k := by
  rw [pow2z_eq_zpow, pow2z_eq_zpow, pow2z_eq_zpow, zpow_add₀ (by norm_num : (2:ℚ) ≠ 0)]

theorem pow10z_add (j k : ℤ) : pow10z (j + k) = pow10z j * pow10z k := by
  rw [pow10z_eq_zpow, pow10z_eq_zpow, pow10z_eq_zpow, zpow_add₀ (by norm_num : (10:ℚ) ≠ 0)]

theorem pow2z_le_pow2z {j k : ℤ} (h : j ≤ k) : pow2z j ≤ pow2z k := by
  rw [pow2z_eq_zpow, pow2z_eq_zpow]
  exact zpow_le_zpow_right₀ (by norm_num) h

/-- Kernel-computable floor of a rational (`Rat.floor_def` shape). -/
def qfloor (q : ℚ) : ℤ := q.num / q.den

theorem qfloor_eq (q : ℚ) : qfloor q = ⌊q⌋ := Rat.floor_def.symm

/-- Round a rational to the nearest integer, ties to even. -/
def rhe (q : ℚ) : ℤ :=
  if q - qfloor q < 1/2 then qfloor q
  else if 1/2 < q - qfloor q then qfloor q + 1
  else if qfloor q % 2 = 0 then qfloor q else qfloor q + 1

theorem rhe_intCast (n : ℤ) : rhe (n : ℚ) = n := by
  have h : qfloor (n : ℚ) = n := by rw [qfloor_eq, Int.floor_intCast]
  simp [rhe, h]

/-- Floor of the base-2 logarithm of a positive rational. -/
def ilog2 (a : ℚ) : ℤ :=
  if pow2z ((natLenB 2 a.num.natAbs : ℤ) - (natLenB 2 a.den : ℤ)) ≤ a
  then (natLenB 2 a.num.natAbs : ℤ) - (natLenB 2 a.den : ℤ)
  else (natLenB 2 a.num.natAbs : ℤ) - (natLenB 2 a.den : ℤ) - 1

theorem ilog2_bounds (a : ℚ) (ha : 0 < a) :
    pow2z ((natLenB 2 a.num.natAbs : ℤ) - (natLenB 2 a.den : ℤ) - 1) ≤ a ∧
      a < pow2z ((natLenB 2 a.num.natAbs : ℤ) - (natLenB 2 a.den : ℤ) + 1) := by
  have hnum : 1 ≤ a.num.natAbs := by
    have := Rat.num_pos.mpr ha
    omega
  have hden : 1 ≤ a.den := a.pos
  obtain ⟨hn1, hnlow, hnhigh⟩ := natLenB_spec 2 a.num.natAbs le_rfl hnum
  obtain ⟨hd1, hdlow, hdhigh⟩ := natLenB_spec 2 a.den le_rfl hden
  set ln := natLenB 2 a.num.natAbs with hln
  set ld := natLenB 2 a.den with hld
  have hnum0 : 0 < a.num := Rat.num_pos.mpr ha
  have hnumq : (a.num.natAbs : ℤ) = a.num := Int.natAbs_of_nonneg hnum0.le
  have hnumc : ((a.num.natAbs : ℚ)) = ((a.num : ℤ) : ℚ) := by
    rw [Int.cast_natAbs]
    exact congrArg (fun z : ℤ => (z : ℚ)) (abs_of_nonneg hnum0.le)
  have haq : a = (a.num.natAbs : ℚ) / (a.den : ℚ) := by
    rw [hnumc, Rat.num_div_den]
  have hdenq : (0:ℚ) < (a.den : ℚ) := by exact_mod_cast a.pos
  have h1 : (a.num.natAbs : ℚ) < (2:ℚ) ^ (ln : ℤ) := by
    have h2 : ((a.num.natAbs : ℕ) : ℚ) < ((2 ^ ln : ℕ) : ℚ) := by exact_mod_cast hnhigh
    push_cast at h2
    rwa [← zpow_natCast] at h2
  have h2 : (2:ℚ) ^ ((ln:ℤ) - 1) ≤ (a.num.natAbs : ℚ) := by
    have h3 : ((2 ^ (ln - 1) : ℕ) : ℚ) ≤ ((a.num.natAbs : ℕ) : ℚ) := by exact_mod_cast hnlow
    push_cast at h3
    rw [← zpow_natCast] at h3
    rwa [(by omega : ((ln - 1 : ℕ) : ℤ) = (ln:ℤ) - 1)] at h3
  have h3 : (a.den : ℚ) < (2:ℚ) ^ (ld : ℤ) := by
    have h4 : ((a.den : ℕ) : ℚ) < ((2 ^ ld : ℕ) : ℚ) := by exact_mod_cast hdhigh
    push_cast at h4
    rwa [← zpow_natCast] at h4
  have h4 : (2:ℚ) ^ ((ld:ℤ) - 1) ≤ (a.den : ℚ) := by
    have h5 : ((2 ^ (ld - 1) : ℕ) : ℚ) ≤ ((a.den : ℕ) : ℚ) := by exact_mod_cast hdlow
    push_cast at h5
    rw [← zpow_natCast] at h5
    rwa [(by omega : ((ld - 1 : ℕ) : ℤ) = (ld:ℤ) - 1)] at h5
  constructor
  · rw [pow2z_eq_zpow, haq, le_div_iff₀ hdenq]
    calc (2:ℚ) ^ ((ln:ℤ) - (ld:ℤ) - 1) * (a.den : ℚ)
        ≤ (2:ℚ) ^ ((ln:ℤ) - (ld:ℤ) - 1) * (2:ℚ) ^ (ld : ℤ) := by
          have hp : (0:ℚ) < (2:ℚ) ^ ((ln:ℤ) - (ld:ℤ) - 1) := by positivity
          exact mul_le_mul_of_nonneg_left h3.le hp.le
      _ = (2:ℚ) ^ ((ln:ℤ) - 1) := by
          rw [← zpow_add₀ (by norm_num : (2:ℚ) ≠ 0)]
          congr 1
          omega
      _ ≤ (a.num.natAbs : ℚ) := h2
  · rw [pow2z_eq_zpow, haq, div_lt_iff₀ hdenq]
    calc (a.num.natAbs : ℚ) < (2:ℚ) ^ (ln : ℤ) := h1
      _ = (2:ℚ) ^ ((ln:ℤ) - (ld:ℤ) + 1) * (2:ℚ) ^ ((ld:ℤ) - 1) := by
          rw [← zpow_add₀ (by norm_num : (2:ℚ) ≠ 0)]
          congr 1
          omega
      _ ≤ (2:ℚ) ^ ((ln:ℤ) - (ld:ℤ) + 1) * (a.den : ℚ) := by
          have hp : (0:ℚ) < (2:ℚ) ^ ((ln:ℤ) - (ld:ℤ) + 1) := by positivity
          exact mul_le_mul_of_nonneg_left h4 hp.le

theorem ilog2_spec (a : ℚ) (ha : 0 < a) :
    pow2z (ilog2 a) ≤ a ∧ a < pow2z (ilog2 a + 1) := by
  obtain ⟨hlow, hhigh⟩ := ilog2_bounds a ha
  unfold ilog2
  split
  · next h => exact ⟨h, hhigh⟩
  · next h =>
    refine ⟨?_, ?_⟩
    · exact hlow
    · have heq : (natLenB 2 a.num.natAbs : ℤ) - (natLenB 2 a.den : ℤ) - 1 + 1 =
          (natLenB 2 a.num.natAbs : ℤ) - (natLenB 2 a.den : ℤ) := by omega
      rw [heq]
      exact lt_of_not_ge h

theorem ilog2_unique (a : ℚ) (k : ℤ) (ha : 0 < a)
    (h1 : pow2z k ≤ a) (h2 : a < pow2z (k + 1)) : ilog2 a = k := by
  obtain ⟨hl, hh⟩ := ilog2_spec a ha
  by_contra hne
  rcases lt_or_gt_of_ne hne with hlt | hgt
  · have hmono : pow2z (ilog2 a + 1) ≤ pow2z k := pow2z_le_pow2z (by omega)
    exact absurd (lt_of_lt_of_le hh (le_trans hmono h1)) (lt_irrefl a)
  · have hmono : pow2z (k + 1) ≤ pow2z (ilog2 a) := pow2z_le_pow2z (by omega)
    exact absurd (lt_of_lt_of_le h2 (le_trans hmono hl)) (lt_irrefl a)

/-! ## The f64 model -/

/-- Model of IEEE-754 binary64 values.  NaN payloads are collapsed into a
single `nan` (the program only ever observes `is_nan`).  A finite value
`finite neg m e` denotes `±m·2^e`; well-formed values (`wfB`) use the
canonical encoding `m < 2^53`, `-1074 ≤ e ≤ 971`, with `m ≥ 2^52` unless
`e = -1074` (zero and subnormals). -/
inductive F64 where
  | nan : F64
  | inf (neg : Bool) : F64
  | finite (neg : Bool) (m : ℕ) (e : ℤ) : F64
deriving DecidableEq, Repr

/-- Rational value of a finite f64 (0 for NaN/infinities). -/
def F64.val : F64 → ℚ
  | .finite neg m e => (if neg then (-1:ℚ) else 1) * (m : ℚ) * pow2z e
  | _ => 0

/-- The sign bit. -/
def F64.negBit : F64 → Bool
  | .nan => false
  | .inf s => s
  | .finite s _ _ => s

def F64.isNan : F64 → Bool
  | .nan => true
  | _ => false

def F64.isInfinite : F64 → Bool
  | .inf _ => true
  | _ => false

def F64.isFinite : F64 → Bool
  | .finite _ _ _ => true
  | _ => false

/-- Rust `f64::is_sign_positive`. -/
def F64.isSignPositive (x : F64) : Bool := !x.negBit

/-- The double `+0.0`. -/
def f64Zero : F64 := .finite false 0 (-1074)

/-- Round the nonnegative rational `a` to the nearest double (ties to
even), attaching sign bit `neg`; this is IEEE-754 round-to-nearest-even,
the rounding used by Rust's `str::parse::<f64>` and float arithmetic. -/
def f64ofPosParts (neg : Bool) (a : ℚ) : F64 :=
  if a ≤ 0 then .finite neg 0 (-1074)
  else
    let e2 := ilog2 a
    if e2 < -1022 then
      -- subnormal range
      let n := (rhe (a * pow2z 1074)).toNat
      .finite neg n (-1074)
    else if 1023 < e2 then .inf neg
    else
      let n := (rhe (a * pow2z (52 - e2))).toNat
      if n = 2^53 then
        if e2 = 1023 then .inf neg else .finite neg (2^52) (e2 - 51)
      else .finite neg n (e2 - 52)

/-- Round a signed rational to the nearest double. -/
def f64OfRat (q : ℚ) : F64 := f64ofPosParts (decide (q < 0)) |q|

/-- Canonical-form predicate for `F64` (true IEEE-754 binary64 encodings). -/
def wfB : F64 → Bool
  | .finite _ m e =>
      decide (m < 2^53) && decide (-1074 ≤ e) && decide (e ≤ 971) &&
        (decide (2^52 ≤ m) || decide (e = -1074))
  | _ => true

/-- The f64 constant `1e-6` of the source (`num.abs() >= 1e-6`): the
double nearest to 10⁻⁶. -/
def c1em6 : ℚ := (f64ofPosParts false (1/1000000)).val

/-- The f64 constant `1e16` of the source; 10¹⁶ is exactly representable. -/
def c1e16 : ℚ := 10^16

end RCalc

namespace RCalc

/-! ## Decimal digits and characters -/

/-- Little-endian base-10 digits, fuel-based (`fuel ≥ n` suffices). -/
def digitsRevAux : ℕ → ℕ → List ℕ
  | 0, _ => []
  | f+1, n => if n = 0 then [] else n % 10 :: digitsRevAux f (n / 10)

/-- Big-endian decimal digits of `n` (empty for 0). -/
def natDigits (n : ℕ) : List ℕ := (digitsRevAux n n).reverse

/-- Value of a big-endian digit list. -/
def digitsVal (ds : List ℕ) : ℕ := ds.foldl (fun a d => 10 * a + d) 0

def digitChar (d : ℕ) : Char :=
  match d with
  | 0 => '0' | 1 => '1' | 2 => '2' | 3 => '3' | 4 => '4'
  | 5 => '5' | 6 => '6' | 7 => '7' | 8 => '8' | 9 => '9'
  | _ => '*'

/-- Big-endian decimal digit characters of `n` (empty for 0). -/
def natDigitChars (n : ℕ) : List Char := (natDigits n).map digitChar

/-- Decimal rendering of a natural number ("0" for zero). -/
def natChars (n : ℕ) : List Char := if n = 0 then ['0'] else natDigitChars n

/-- Decimal rendering of an integer. -/
def intChars (z : ℤ) : List Char :=
  if z < 0 then '-' :: natChars z.natAbs else natChars z.natAbs

/-- Numeric value of one digit character. -/
def charVal (c : Char) : ℕ := c.toNat - 48

/-- Numeric value of a digit-character run (as accumulated by a fold). -/
def charsNatVal (cs : List Char) : ℕ := cs.foldl (fun a c => 10 * a + charVal c) 0

theorem digitChar_isDigit {d : ℕ} (h : d < 10) : (digitChar d).isDigit = true := by
  interval_cases d <;> decide

theorem charVal_digitChar {d : ℕ} (h : d < 10) : charVal (digitChar d) = d := by
  interval_cases d <;> decide

theorem digitChar_ne_zeroChar {d : ℕ} (h : d < 10) (h0 : d ≠ 0) : digitChar d ≠ '0' := by
  interval_cases d <;> simp_all <;> decide

theorem digitChar_ne_dot (d : ℕ) : digitChar d ≠ '.' := by
  unfold digitChar; split <;> decide

theorem digitChar_ne_e (d : ℕ) : digitChar d ≠ 'e' := by
  unfold digitChar; split <;> decide

theorem digitChar_ne_E (d : ℕ) : digitChar d ≠ 'E' := by
  unfold digitChar; split <;> decide

theorem digitChar_ne_minus (d : ℕ) : digitChar d ≠ '-' := by
  unfold digitChar; split <;> decide

theorem digitChar_ne_plus (d : ℕ) : digitChar d ≠ '+' := by
  unfold digitChar; split <;> decide

theorem digitsRevAux_lt (f : ℕ) : ∀ n, ∀ d ∈ digitsRevAux f n, d < 10 := by
  induction f with
  | zero => intro n d hd; simp [digitsRevAux] at hd
  | succ f ih =>
    intro n d hd
    rw [digitsRevAux] at hd
    by_cases h : n = 0
    · simp [h] at hd
    · rw [if_neg h] at hd
      rcases List.mem_cons.mp hd with h1 | h1
      · subst h1; exact Nat.mod_lt n (by norm_num)
      · exact ih (n / 10) d h1

theorem natDigits_lt (n : ℕ) : ∀ d ∈ natDigits n, d < 10 := by
  intro d hd
  exact digitsRevAux_lt n n d (List.mem_reverse.mp hd)

/-- Little-endian value fold. -/
def valLE (ds : List ℕ) : ℕ := ds.foldr (fun d a => d + 10 * a) 0

theorem valLE_digitsRevAux : ∀ f n, n ≤ f → valLE (digitsRevAux f n) = n := by
  intro f
  induction f with
  | zero => intro n hn; interval_cases n; simp [digitsRevAux, valLE]
  | succ f ih =>
    intro n hn
    rw [digitsRevAux]
    by_cases h : n = 0
    · simp [h, valLE]
    · rw [if_neg h]
      have h10 : n / 10 < n := Nat.div_lt_self (by omega) (by norm_num)
      have := ih (n / 10) (by omega)
      unfold valLE at this ⊢
      rw [List.foldr_cons, this]
      omega

theorem digitsVal_natDigits (n : ℕ) : digitsVal (natDigits n) = n := by
  rw [digitsVal, natDigits, List.foldl_reverse]
  have h := valLE_digitsRevAux n n le_rfl
  unfold valLE at h
  calc List.foldr (fun x y => 10 * y + x) 0 (digitsRevAux n n)
      = List.foldr (fun d a => d + 10 * a) 0 (digitsRevAux n n) := by
        congr 1
        funext x y
        omega
    _ = n := h

theorem natDigits_ne_nil {n : ℕ} (h : 1 ≤ n) : natDigits n ≠ [] := by
  intro hcon
  have := digitsVal_natDigits n
  rw [hcon] at this
  simp [digitsVal] at this
  omega

/-- A fold of digit characters starting from `s`. -/
theorem charsNatVal_from (cs : List Char) :
    ∀ s : ℕ, cs.foldl (fun a c => 10 * a + charVal c) s =
      s * 10 ^ cs.length + charsNatVal cs := by
  induction cs with
  | nil => intro s; simp [charsNatVal]
  | cons c cs ih =>
    intro s
    rw [List.foldl_cons, ih]
    have h2 : charsNatVal (c :: cs) = charVal c * 10 ^ cs.length + charsNatVal cs := by
      show List.foldl _ (10 * 0 + charVal c) cs = _
      rw [ih (10 * 0 + charVal c)]
      ring_nf
    rw [h2, List.length_cons, pow_succ]
    ring

/-- A fold of digits starting from `s`. -/
theorem digitsVal_from (ds : List ℕ) :
    ∀ s : ℕ, ds.foldl (fun a d => 10 * a + d) s =
      s * 10 ^ ds.length + digitsVal ds := by
  induction ds with
  | nil => intro s; simp [digitsVal]
  | cons d ds ih =>
    intro s
    rw [List.foldl_cons, ih]
    have h2 : digitsVal (d :: ds) = d * 10 ^ ds.length + digitsVal ds := by
      show List.foldl _ (10 * 0 + d) ds = _
      rw [ih (10 * 0 + d)]
      ring_nf
    rw [h2, List.length_cons, pow_succ]
    ring

theorem charsNatVal_append (l1 l2 : List Char) :
    charsNatVal (l1 ++ l2) = charsNatVal l1 * 10 ^ l2.length + charsNatVal l2 := by
  rw [charsNatVal, List.foldl_append, ← charsNatVal, charsNatVal_from]

theorem charsNatVal_replicate_zero (k : ℕ) :
    charsNatVal (List.replicate k '0') = 0 := by
  induction k with
  | zero => simp [charsNatVal]
  | succ k ih =>
    rw [List.replicate_succ, charsNatVal, List.foldl_cons]
    show List.foldl _ (10 * 0 + charVal '0') _ = 0
    have : (10 * 0 + charVal '0') = 0 := by decide
    rw [this, ← charsNatVal, ih]

theorem charsNatVal_map_digitChar (ds : List ℕ) (h : ∀ d ∈ ds, d < 10) :
    charsNatVal (ds.map digitChar) = digitsVal ds := by
  induction ds with
  | nil => simp [charsNatVal, digitsVal]
  | cons d ds ih =>
    have hd : d < 10 := h d (List.mem_cons_self d ds)
    have hrest : ∀ d' ∈ ds, d' < 10 := fun d' hd' => h d' (List.mem_cons_of_mem d hd')
    have h1 : charsNatVal ((d :: ds).map digitChar) =
        List.foldl (fun a c => 10 * a + charVal c) (10 * 0 + charVal (digitChar d))
          (ds.map digitChar) := rfl
    have h2 : digitsVal (d :: ds) =
        List.foldl (fun a d => 10 * a + d) (10 * 0 + d) ds := rfl
    rw [h1, h2, charsNatVal_from, digitsVal_from, ih hrest, charVal_digitChar hd,
      List.length_map]

theorem charsNatVal_natDigitChars (n : ℕ) : charsNatVal (natDigitChars n) = n := by
  rw [natDigitChars, charsNatVal_map_digitChar _ (natDigits_lt n), digitsVal_natDigits]

theorem natDigitChars_isDigit (n : ℕ) : ∀ c ∈ natDigitChars n, c.isDigit = true := by
  intro c hc
  obtain ⟨d, hd, rfl⟩ := List.mem_map.mp hc
  exact digitChar_isDigit (natDigits_lt n d hd)

end RCalc
namespace RCalc

/-! ## Parsing (model of Rust `str::parse`) -/

/-- Take the longest prefix of ASCII digits (a `span`). -/
def munchDigits : List Char → List Char × List Char
  | [] => ([], [])
  | c :: r =>
    if c.isDigit then ((munchDigits r).1.cons c, (munchDigits r).2)
    else ([], c :: r)

/-- Strip an optional leading sign, returning whether it was `-`. -/
def splitSign : List Char → Bool × List Char
  | [] => (false, [])
  | c :: r =>
    if c = '-' then (true, r)
    else if c = '+' then (false, r)
    else (false, c :: r)

/-- After the integral digits: an optional `.` followed by more digits. -/
def splitDot : List Char → List Char × List Char
  | [] => ([], [])
  | c :: r => if c = '.' then munchDigits r else ([], c :: r)

/-- Rational value of integral digits `ip`, fractional digits `fp`, and a
base-10 exponent `e`. -/
def ratOfParts (ip fp : List Char) (e : ℤ) : ℚ :=
  ((charsNatVal ip : ℚ) + (charsNatVal fp : ℚ) / (((10:ℕ) ^ fp.length : ℕ) : ℚ)) * pow10z e

/-- Exponent tail of a float literal: `[+-]?digits`, then end of input. -/
def parseExpChars (neg : Bool) (ip fp : List Char) (r : List Char) : Option F64 :=
  let se := splitSign r
  let ed := munchDigits se.2
  if ed.1.isEmpty || !ed.2.isEmpty then none
  else some (f64ofPosParts neg (ratOfParts ip fp
    (if se.1 then -(charsNatVal ed.1 : ℤ) else (charsNatVal ed.1 : ℤ))))

/-- Model of Rust `str::parse::<f64>` on the grammar
`[+-]? digits [. digits]? ([eE] [+-]? digits)?` (at least one mantissa
digit; nothing may follow).  The textual special forms `inf`/`infinity`/
`NaN`, which this program can never feed to `parse`, are not modelled.
Values too large round to infinity, too small to (signed) zero, exactly as
in Rust. -/
def parseF64Chars (cs : List Char) : Option F64 :=
  let s := splitSign cs
  let ipr := munchDigits s.2
  let fpr := splitDot ipr.2
  if ipr.1.isEmpty && fpr.1.isEmpty then none
  else
    match fpr.2 with
    | [] => some (f64ofPosParts s.1 (ratOfParts ipr.1 fpr.1 0))
    | c :: r => if c = 'e' ∨ c = 'E' then parseExpChars s.1 ipr.1 fpr.1 r else none

/-- Model of Rust `str::parse::<i32>` (`[+-]? digits`, nothing following;
overflow, impossible for the exponents this program produces, is not
modelled). -/
def parseIntChars (cs : List Char) : Option ℤ :=
  let s := splitSign cs
  let d := munchDigits s.2
  if d.1.isEmpty || !d.2.isEmpty then none
  else some (if s.1 then -(charsNatVal d.1 : ℤ) else (charsNatVal d.1 : ℤ))

/-! ## Rendering digits positionally and scientifically -/

/-- Positional decimal rendering of the value `n·10^e10` (`n ≥ 1`): the
digit string of `n` with the decimal point placed per `e10`, zero-padded
as needed.  This is the layout Rust's `Display` for `f64` uses (it never
produces an exponent). -/
def renderBody (n : ℕ) (e10 : ℤ) : List Char :=
  if 0 ≤ e10 then natDigitChars n ++ List.replicate e10.toNat '0'
  else
    if (natDigitChars n).length ≤ (-e10).toNat then
      '0' :: '.' :: (List.replicate ((-e10).toNat - (natDigitChars n).length) '0' ++ natDigitChars n)
    else
      (natDigitChars n).take ((natDigitChars n).length - (-e10).toNat) ++
        '.' :: (natDigitChars n).drop ((natDigitChars n).length - (-e10).toNat)

def renderPosChars (neg : Bool) (n : ℕ) (e10 : ℤ) : List Char :=
  (if neg then ['-'] else []) ++ renderBody n e10

/-- Scientific rendering `d.dd…e±x` of the value `±n·10^e10` (`n ≥ 1`,
no trailing zeros in `n`), as produced by Rust's `{:e}` format. -/
def renderSciChars (neg : Bool) (n : ℕ) (e10 : ℤ) : List Char :=
  (if neg then ['-'] else []) ++
  (match natDigitChars n with
   | [] => ['0']
   | d :: ds => d :: (if ds.isEmpty then [] else '.' :: ds)) ++
  'e' :: intChars (e10 + (natDigitChars n).length - 1)

/-- Remove factors of ten from `n`, bumping the exponent (fuel-based). -/
def stripZerosAux : ℕ → ℕ → ℤ → ℕ × ℤ
  | 0, n, e => (n, e)
  | f+1, n, e => if n % 10 = 0 ∧ n ≠ 0 then stripZerosAux f (n / 10) (e + 1) else (n, e)

/-- Normalize a digits/exponent pair so the digits have no trailing zero. -/
def stripZeros (n : ℕ) (e : ℤ) : ℕ × ℤ := stripZerosAux n n e

theorem stripZerosAux_val (f : ℕ) : ∀ (n : ℕ) (e : ℤ),
    ((stripZerosAux f n e).1 : ℚ) * pow10z (stripZerosAux f n e).2 = (n : ℚ) * pow10z e := by
  induction f with
  | zero => intro n e; rfl
  | succ f ih =>
    intro n e
    rw [stripZerosAux]
    split
    · next h =>
      obtain ⟨h10, hne⟩ := h
      obtain ⟨m, rfl⟩ : 10 ∣ n := Nat.dvd_of_mod_eq_zero h10
      have hm : 10 * m / 10 = m := by omega
      rw [hm, ih]
      have : pow10z (e + 1) = pow10z e * 10 := by
        rw [pow10z_add]
        norm_num [pow10z]
      rw [this]
      push_cast
      ring
    · rfl

theorem stripZerosAux_pos (f : ℕ) : ∀ (n : ℕ) (e : ℤ), 1 ≤ n →
    1 ≤ (stripZerosAux f n e).1 := by
  induction f with
  | zero => intro n e h; exact h
  | succ f ih =>
    intro n e h
    rw [stripZerosAux]
    split
    · next hc =>
      obtain ⟨h10, hne⟩ := hc
      exact ih _ _ (by omega)
    · exact h

theorem stripZerosAux_ndvd (f : ℕ) : ∀ (n : ℕ) (e : ℤ), n ≤ f → 1 ≤ n →
    ¬ (10 ∣ (stripZerosAux f n e).1) := by
  induction f with
  | zero => intro n e hf h1; omega
  | succ f ih =>
    intro n e hf h1
    rw [stripZerosAux]
    split
    · next hc =>
      obtain ⟨h10, hne⟩ := hc
      have h10' : 10 ∣ n := Nat.dvd_of_mod_eq_zero h10
      have : n / 10 < n := Nat.div_lt_self (by omega) (by norm_num)
      exact ih (n / 10) (e + 1) (by omega) (by
        obtain ⟨m, rfl⟩ := h10'
        have : 10 * m / 10 = m := by omega
        omega)
    · next hc =>
      intro hdvd
      have : n % 10 = 0 := Nat.eq_zero_of_dvd_of_lt (Nat.dvd_sub' hdvd (Nat.dvd_refl _)) (by omega) |>.symm ▸ Nat.mod_eq_zero_of_dvd hdvd
      exact hc ⟨this, by omega⟩

theorem stripZeros_val (n : ℕ) (e : ℤ) :
    ((stripZeros n e).1 : ℚ) * pow10z (stripZeros n e).2 = (n : ℚ) * pow10z e :=
  stripZerosAux_val n n e

theorem stripZeros_pos {n : ℕ} (e : ℤ) (h : 1 ≤ n) : 1 ≤ (stripZeros n e).1 :=
  stripZerosAux_pos n n e h

theorem stripZeros_ndvd {n : ℕ} (e : ℤ) (h : 1 ≤ n) : ¬ (10 ∣ (stripZeros n e).1) :=
  stripZerosAux_ndvd n n e le_rfl h

end RCalc

namespace RCalc

/-! ## Shortest round-trip digits (Rust float formatting) -/

/-- Floor of the base-10 logarithm of a positive rational. -/
def ilog10 (a : ℚ) : ℤ :=
  if pow10z ((natLenB 10 a.num.natAbs : ℤ) - (natLenB 10 a.den : ℤ)) ≤ a
  then (natLenB 10 a.num.natAbs : ℤ) - (natLenB 10 a.den : ℤ)
  else (natLenB 10 a.num.natAbs : ℤ) - (natLenB 10 a.den : ℤ) - 1

/-- Value `a` (positive, with `d = ilog10 a`) correctly rounded to `k`
significant decimal digits, as a digits/exponent pair. -/
def sigCand (a : ℚ) (d : ℤ) (k : ℕ) : ℕ × ℤ :=
  ((rhe (a * pow10z ((k:ℤ) - 1 - d))).toNat, d - (k:ℤ) + 1)

/-- The exact decimal expansion of `m·2^e` as a digits/exponent pair
(`m·2^e = (m·5^(-e))·10^e` for `e < 0`). -/
def exactDigits (m : ℕ) (e : ℤ) : ℕ × ℤ :=
  if 0 ≤ e then (m * 2 ^ e.toNat, 0) else (m * 5 ^ (-e).toNat, e)

/-- Try `k`-significant-digit candidates in order; accept the first whose
value rounds back to `x` (the defining property of Rust's shortest
round-trip output).  17 digits always suffice for a double, so the exact
expansion fallback is unreachable; it keeps the definition total and
honest. -/
def searchDigits (x : F64) (a : ℚ) (d : ℤ) : List ℕ → ℕ × ℤ
  | [] =>
    match x with
    | .finite _ m e => exactDigits m e
    | _ => (0, 0)
  | k :: ks =>
    if f64ofPosParts x.negBit (((sigCand a d k).1 : ℚ) * pow10z (sigCand a d k).2) = x
    then sigCand a d k
    else searchDigits x a d ks

/-- Shortest decimal digits (no trailing zeros) and exponent for a finite
nonzero double: the digits Rust's `Display`/`{:e}` print. -/
def shortestDigits (x : F64) : ℕ × ℤ :=
  let r := searchDigits x |x.val| (ilog10 |x.val|)
    [1,2,3,4,5,6,7,8,9,10,11,12,13,14,15,16,17]
  stripZeros r.1 r.2

/-- Model of Rust `format!("{}", num)` for f64: positional shortest
round-trip decimal, no exponent ever. -/
def displayChars : F64 → List Char
  | .nan => "NaN".data
  | .inf s => if s then "-inf".data else "inf".data
  | .finite neg m e =>
    if m = 0 then (if neg then ['-', '0'] else ['0'])
    else
      renderPosChars neg (shortestDigits (.finite neg m e)).1
        (shortestDigits (.finite neg m e)).2

/-- Model of Rust `format!("{:e}", num)`: scientific shortest round-trip
decimal (`0e0` for zero, sign preserved). -/
def fmtExpChars : F64 → List Char
  | .nan => "NaN".data
  | .inf s => if s then "-inf".data else "inf".data
  | .finite neg m e =>
    if m = 0 then (if neg then "-0e0".data else "0e0".data)
    else
      renderSciChars neg (shortestDigits (.finite neg m e)).1
        (shortestDigits (.finite neg m e)).2

/-- Decimal digits of `v` left-padded with zeros to width `w`. -/
def padLeftZeros (w v : ℕ) : List Char :=
  List.replicate (w - (natChars v).length) '0' ++ natChars v

/-- Model of Rust `format!("{:.15}", num)`: fixed 15 fractional digits,
correctly rounded, ties to even; the sign of `-0.0` is preserved. -/
def fixed15Chars : F64 → List Char
  | .nan => "NaN".data
  | .inf s => if s then "-inf".data else "inf".data
  | .finite neg m e =>
    (if neg then ['-'] else []) ++
      (natChars ((rhe ((m : ℚ) * pow2z e * ((10:ℕ)^15 : ℕ))).toNat / 10 ^ 15) ++
        '.' :: padLeftZeros 15 ((rhe ((m : ℚ) * pow2z e * ((10:ℕ)^15 : ℕ))).toNat % 10 ^ 15))

/-! ## Negation and `>=` on doubles -/

/-- Rust unary `-` on f64 (flips the sign bit, also of NaN/zero). -/
def f64Neg : F64 → F64
  | .nan => .nan
  | .inf s => .inf !s
  | .finite s m e => .finite (!s) m e

/-- The IEEE `>=` (`false` whenever NaN is involved; `-0.0 >= 0.0` is true). -/
def f64Ge (a b : F64) : Bool :=
  match a, b with
  | .nan, _ => false
  | _, .nan => false
  | .inf s, .inf t => !s || t
  | .inf s, .finite _ _ _ => !s
  | .finite _ _ _, .inf t => t
  | .finite s1 m1 e1, .finite s2 m2 e2 =>
    decide ((F64.finite s2 m2 e2).val ≤ (F64.finite s1 m1 e1).val)

/-! ## The formatter (translated from `src/main.rs`) -/

/-- Rust `trim_end_matches(c)`: drop every trailing copy of `c`. -/
def trimEndChar (c : Char) (cs : List Char) : List Char :=
  (cs.reverse.dropWhile (fun x => x = c)).reverse

/-- Function `trim_trailing_zeros` (main.rs:182): if the string contains `'.'`,
pop trailing `'0'`s, then one trailing `'.'`. -/
def trimZerosChars (cs : List Char) : List Char :=
  if cs.contains '.' then
    ((if (cs.reverse.dropWhile (fun x => x = '0')).head? = some '.'
      then (cs.reverse.dropWhile (fun x => x = '0')).tail
      else cs.reverse.dropWhile (fun x => x = '0'))).reverse
  else cs

def trim_trailing_zeros (s : String) : String := String.mk (trimZerosChars s.data)

/-- Function `format_regular_number` (main.rs:175): default `Display` conversion
followed by `trim_trailing_zeros`. -/
def format_regular_number (num : F64) : String :=
  String.mk (trimZerosChars (displayChars num))

/-- Model of `BigInt::parse_bytes(…, 10)`: optional sign, then decimal digits. -/
def parseBigInt (cs : List Char) : Option ℤ :=
  let s := splitSign cs
  let d := munchDigits s.2
  if d.1.isEmpty || !d.2.isEmpty then none
  else some (if s.1 then -(charsNatVal d.1 : ℤ) else (charsNatVal d.1 : ℤ))

/-- Function `format_large_number` (main.rs:227): mantissa digits times `10^exp`
via arbitrary-precision integers. -/
def format_large_number (mantissa_str : List Char) (exp : ℤ) : List Char :=
  intChars ((parseBigInt mantissa_str).getD 0 * ((10:ℤ) ^ exp.toNat))

/-- Function `format_small_number` (main.rs:235): place a decimal point `-exp`
digits from the right of the mantissa digit string. -/
def format_small_number (mantissa_str : List Char) (exp : ℤ) : List Char :=
  let result := intChars ((parseBigInt mantissa_str).getD 0)
  if result.length ≤ (-exp).toNat then
    '0' :: '.' :: (List.replicate ((-exp).toNat - result.length) '0' ++ result)
  else
    result.take (result.length - (-exp).toNat) ++
      '.' :: result.drop (result.length - (-exp).toNat)

/-- Function `format_with_bigint` (main.rs:196): format the mantissa with 15
fractional digits, strip trailing zeros and dot, remove the decimal point
(tracking how many digits moved), and dispatch on the adjusted exponent. -/
def format_with_bigint (mantissa : F64) (exp : ℤ) : List Char :=
  let mantissa_str := trimEndChar '.' (trimEndChar '0' (fixed15Chars mantissa))
  let int_part := if mantissa_str.contains '.'
    then mantissa_str.takeWhile (fun c => !(c = '.')) else mantissa_str
  let frac_part := if mantissa_str.contains '.'
    then (mantissa_str.dropWhile (fun c => !(c = '.'))).tail else []
  let adjusted_exp := exp - (frac_part.length : ℤ)
  if 0 ≤ adjusted_exp then format_large_number (int_part ++ frac_part) adjusted_exp
  else format_small_number (int_part ++ frac_part) adjusted_exp

/-- Split on every occurrence of a character (Rust `str::split(char)`). -/
def splitOnChar (c : Char) : List Char → List (List Char)
  | [] => [[]]
  | x :: r =>
    if x = c then [] :: splitOnChar c r
    else
      match splitOnChar c r with
      | [] => [[x]]
      | h :: t => (x :: h) :: t

/-- Function `format_full_decimal` (main.rs:138): NaN/±Infinity literals; default
decimal conversion in the band `1e-6 ≤ |x| < 1e16`; otherwise split the
`{:e}` form into mantissa and exponent and rebuild the exact decimal with
big integers, finally trimming trailing zeros. -/
def format_full_decimal (num : F64) : String :=
  if num.isNan then "NaN"
  else if num.isInfinite then
    (if num.isSignPositive then "Infinity" else "-Infinity")
  else if |num.val| < c1e16 ∧ c1em6 ≤ |num.val| ∧
      ¬ ((displayChars num).contains 'e' = true) then
    format_regular_number num
  else
    let parts := splitOnChar 'e' (fmtExpChars num)
    let mantissa := (parseF64Chars (parts.getD 0 [])).getD .nan
    let exp := (parseIntChars (parts.getD 1 [])).getD 0
    String.mk (trimZerosChars
      (if f64Ge mantissa f64Zero
       then format_with_bigint mantissa exp
       else '-' :: format_with_bigint (f64Neg mantissa) exp))

end RCalc

namespace RCalc

/-! ## f64 arithmetic (IEEE-754 round-to-nearest-even) -/

def f64Add (a b : F64) : F64 :=
  match a, b with
  | .nan, _ => .nan
  | _, .nan => .nan
  | .inf s, .inf t => if s = t then .inf s else .nan
  | .inf s, .finite _ _ _ => .inf s
  | .finite _ _ _, .inf t => .inf t
  | .finite s1 m1 e1, .finite s2 m2 e2 =>
    if (F64.finite s1 m1 e1).val + (F64.finite s2 m2 e2).val = 0 then
      -- an exactly-zero sum is +0 unless both addends carry a negative sign
      .finite (s1 && s2) 0 (-1074)
    else
      f64ofPosParts (decide ((F64.finite s1 m1 e1).val + (F64.finite s2 m2 e2).val < 0))
        |(F64.finite s1 m1 e1).val + (F64.finite s2 m2 e2).val|

/-- In IEEE arithmetic subtraction is addition of the negation. -/
def f64Sub (a b : F64) : F64 := f64Add a (f64Neg b)

def f64Mul (a b : F64) : F64 :=
  match a, b with
  | .nan, _ => .nan
  | _, .nan => .nan
  | .inf s, .inf t => .inf (xor s t)
  | .inf s, .finite t m _ => if m = 0 then .nan else .inf (xor s t)
  | .finite t m _, .inf s => if m = 0 then .nan else .inf (xor t s)
  | .finite s1 m1 e1, .finite s2 m2 e2 =>
    f64ofPosParts (xor s1 s2) ((m1 : ℚ) * pow2z e1 * ((m2 : ℚ) * pow2z e2))

def f64Div (a b : F64) : F64 :=
  match a, b with
  | .nan, _ => .nan
  | _, .nan => .nan
  | .inf _, .inf _ => .nan
  | .inf s, .finite t _ _ => .inf (xor s t)
  | .finite t _ _, .inf s => .finite (xor t s) 0 (-1074)
  | .finite s1 m1 e1, .finite s2 m2 e2 =>
    if m2 = 0 then (if m1 = 0 then .nan else .inf (xor s1 s2))
    else f64ofPosParts (xor s1 s2) (((m1 : ℚ) * pow2z e1) / ((m2 : ℚ) * pow2z e2))

/-- The IEEE `==` (`false` whenever NaN is involved; `-0.0 == 0.0`). -/
def f64Eq (a b : F64) : Bool :=
  match a, b with
  | .nan, _ => false
  | _, .nan => false
  | .inf s, .inf t => s == t
  | .inf _, .finite _ _ _ => false
  | .finite _ _ _, .inf _ => false
  | .finite s1 m1 e1, .finite s2 m2 e2 =>
    decide ((F64.finite s1 m1 e1).val = (F64.finite s2 m2 e2).val)

/-! ## Tokenizer and evaluator (translated from `src/main.rs`) -/

/-- Token types that can be parsed from input expressions (main.rs:6). -/
inductive Token where
  | Number (value : F64)
  | Operator (symbol : Char)
deriving DecidableEq, Repr

/-- Function `apply_operation` (main.rs:119). -/
def apply_operation (left right : F64) (op : Char) : Except String F64 :=
  if op = '+' then .ok (f64Add left right)
  else if op = '-' then .ok (f64Sub left right)
  else if op = '*' then .ok (f64Mul left right)
  else if op = '/' then
    if f64Eq right f64Zero then .error "Division by zero!"
    else .ok (f64Div left right)
  else .error ("Invalid operator: " ++ String.singleton op)

/-- The loop of `calculate` (main.rs:100): state is the accumulator
`result` and the pending operator `current_op`. -/
def calculateGo : List Token → F64 → Char → Except String F64
  | [], result, _ => .ok result
  | .Number num :: ts, result, current_op =>
    match apply_operation result num current_op with
    | .ok r2 => calculateGo ts r2 current_op
    | .error e => .error e
  | .Operator op :: ts, result, _ => calculateGo ts result op

/-- Function `calculate` (main.rs:100): accumulator starts at `0.0`, pending
operator at `'+'`. -/
def calculate (tokens : List Token) : Except String F64 :=
  calculateGo tokens f64Zero '+'

/-- The scan of `tokenize` (main.rs:54): `current_num` is the pending
numeric literal buffer; an `e`/`E` immediately followed by a sign consumes
both characters into the buffer (hence the two-character pattern). -/
def tokenizeAux : List Char → List Char → Except String (List Token)
  | [], current_num =>
    if current_num.isEmpty then .ok []
    else
      match parseF64Chars current_num with
      | some num => .ok [Token.Number num]
      | none => .error ("Invalid number: " ++ String.mk current_num)
  | c :: s :: rest2, current_num =>
    if c.isDigit = true ∨ c = '.' ∨ c = 'e' ∨ c = 'E' then
      if (c = 'e' ∨ c = 'E') ∧ (s = '+' ∨ s = '-') then
        tokenizeAux rest2 (current_num ++ [c, s])
      else tokenizeAux (s :: rest2) (current_num ++ [c])
    else if c = '+' ∨ c = '-' ∨ c = '*' ∨ c = '/' then
      if current_num.isEmpty then
        (tokenizeAux (s :: rest2) []).map (fun ts => Token.Operator c :: ts)
      else
        match parseF64Chars current_num with
        | some num =>
          (tokenizeAux (s :: rest2) []).map
            (fun ts => Token.Number num :: Token.Operator c :: ts)
        | none => .error ("Invalid number: " ++ String.mk current_num)
    else .error ("Invalid character: " ++ String.singleton c)
  | [c], current_num =>
    if c.isDigit = true ∨ c = '.' ∨ c = 'e' ∨ c = 'E' then
      tokenizeAux [] (current_num ++ [c])
    else if c = '+' ∨ c = '-' ∨ c = '*' ∨ c = '/' then
      if current_num.isEmpty then
        (tokenizeAux [] []).map (fun ts => Token.Operator c :: ts)
      else
        match parseF64Chars current_num with
        | some num =>
          (tokenizeAux [] []).map (fun ts => Token.Number num :: Token.Operator c :: ts)
        | none => .error ("Invalid number: " ++ String.mk current_num)
    else .error ("Invalid character: " ++ String.singleton c)

/-- Function `tokenize` (main.rs:54). -/
def tokenize (expr : String) : Except String (List Token) :=
  tokenizeAux expr.data []

/-- Function `evaluate_expression` (main.rs:48). -/
def evaluate_expression (expr : String) : Except String F64 :=
  match tokenize expr with
  | .ok tokens => calculate tokens
  | .error e => .error e

/-- One step of the specification-side left fold: an `Operator` token
replaces the pending operator, a `Number` token immediately applies it. -/
def foldStep (st : Except String (F64 × Char)) (t : Token) :
    Except String (F64 × Char) :=
  match st with
  | .error e => .error e
  | .ok (acc, op) =>
    match t with
    | .Operator c => .ok (acc, c)
    | .Number n =>
      match apply_operation acc n op with
      | .ok r => .ok (r, op)
      | .error e => .error e

/-- Specification-side evaluator: a strict left fold over the tokens with
accumulator `0.0` and pending operator `'+'` (no precedence). -/
def evalFoldSpec (tokens : List Token) : Except String F64 :=
  (tokens.foldl foldStep (.ok (f64Zero, '+'))).map (fun p => p.1)

end RCalc

namespace RCalc

/-! ## The evaluator is a left fold -/

theorem foldl_foldStep_error (ts : List Token) (e : String) :
    ts.foldl foldStep (.error e) = .error e := by
  induction ts with
  | nil => rfl
  | cons t ts ih => rw [List.foldl_cons]; exact ih

theorem calculateGo_eq_foldl (ts : List Token) : ∀ (r : F64) (op : Char),
    calculateGo ts r op = (ts.foldl foldStep (.ok (r, op))).map (fun p => p.1) := by
  induction ts with
  | nil => intro r op; rfl
  | cons t ts ih =>
    intro r op
    cases t with
    | Operator c =>
      rw [calculateGo, List.foldl_cons]
      exact ih r c
    | Number n =>
      rw [calculateGo, List.foldl_cons]
      cases h : apply_operation r n op with
      | ok r2 =>
        rw [show foldStep (.ok (r, op)) (.Number n) = .ok (r2, op) by
          simp [foldStep, h]]
        exact ih r2 op
      | error e =>
        rw [show foldStep (.ok (r, op)) (.Number n) = .error e by
          simp [foldStep, h]]
        rw [foldl_foldStep_error]
        rfl

/-! ## The division-by-zero guard -/

theorem apply_operation_div (l r : F64) :
    apply_operation l r '/' =
      (if f64Eq r f64Zero then .error "Division by zero!" else .ok (f64Div l r)) := by
  rw [apply_operation, if_neg (by decide), if_neg (by decide), if_neg (by decide),
    if_pos rfl]

end RCalc
namespace RCalc

/-! ## Error-message shapes -/

theorem getElemN_append_left (n : ℕ) (l1 l2 : List Char) (h : n < l1.length) :
    (l1 ++ l2)[n]? = l1[n]? := by
  rw [List.getElem?_append, if_pos h]

theorem invalid_number_ne_invalid_operator (b t : String) :
    ("Invalid number: " ++ b) ≠ ("Invalid operator: " ++ t) := by
  intro h
  have hd := congrArg (fun s : String => s.data[8]?) h
  simp only [String.data_append] at hd
  rw [getElemN_append_left 8 _ _ (by decide), getElemN_append_left 8 _ _ (by decide)] at hd
  exact absurd hd (by decide)

theorem invalid_character_ne_invalid_operator (b t : String) :
    ("Invalid character: " ++ b) ≠ ("Invalid operator: " ++ t) := by
  intro h
  have hd := congrArg (fun s : String => s.data[8]?) h
  simp only [String.data_append] at hd
  rw [getElemN_append_left 8 _ _ (by decide), getElemN_append_left 8 _ _ (by decide)] at hd
  exact absurd hd (by decide)

theorem division_by_zero_ne_invalid_operator (t : String) :
    ("Division by zero!" : String) ≠ ("Invalid operator: " ++ t) := by
  intro h
  have hd := congrArg (fun s : String => s.data[0]?) h
  simp only [String.data_append] at hd
  rw [getElemN_append_left 0 _ _ (by decide)] at hd
  exact absurd hd (by decide)

/-! ## Tokenizer invariants -/

/-- The four operator symbols. -/
def opsChar (c : Char) : Prop := c = '+' ∨ c = '-' ∨ c = '*' ∨ c = '/'

instance (c : Char) : Decidable (opsChar c) := by unfold opsChar; infer_instance

/-- Characters the tokenizer accepts: digits, `.`, `e`/`E` (with the signs
usable in exponent position doubling as operators), and the operators. -/
def allowedChar (c : Char) : Prop :=
  (c.isDigit = true ∨ c = '.' ∨ c = 'e' ∨ c = 'E') ∨ opsChar c

instance (c : Char) : Decidable (allowedChar c) := by unfold allowedChar; infer_instance

theorem tokenizeAux_ok_ops : ∀ cs buf, ∀ ts, tokenizeAux cs buf = .ok ts →
    ∀ c, Token.Operator c ∈ ts → opsChar c := by
  intro cs buf
  induction cs, buf using tokenizeAux.induct with
  | case1 buf hbuf =>
    intro ts hok c hc
    simp [tokenizeAux, hbuf] at hok
    subst hok
    simp at hc
  | case2 buf hbuf num hp =>
    intro ts hok c hc
    simp [tokenizeAux, hbuf, hp] at hok
    subst hok
    simp at hc
  | case3 buf hbuf hp =>
    intro ts hok
    simp [tokenizeAux, hbuf, hp] at hok
  | case4 c s rest2 buf h1 h2 ih =>
    intro ts hok
    rw [tokenizeAux, if_pos h1, if_pos h2] at hok
    exact ih ts hok
  | case5 c s rest2 buf h1 h2 ih =>
    intro ts hok
    rw [tokenizeAux, if_pos h1, if_neg h2] at hok
    exact ih ts hok
  | case6 c s rest2 buf h1 h2 h3 ih =>
    intro ts hok c' hc'
    rw [tokenizeAux, if_neg h1, if_pos h2, if_pos h3] at hok
    cases hin : tokenizeAux (s :: rest2) [] with
    | ok ts' =>
      rw [hin] at hok
      simp [Except.map] at hok
      subst hok
      rcases List.mem_cons.mp hc' with h | h
      · cases h; exact h2
      · exact ih ts' hin c' h
    | error e => rw [hin] at hok; simp [Except.map] at hok
  | case7 c s rest2 buf h1 h2 h3 num hp ih =>
    intro ts hok c' hc'
    rw [tokenizeAux, if_neg h1, if_pos h2, if_neg h3, hp] at hok
    cases hin : tokenizeAux (s :: rest2) [] with
    | ok ts' =>
      rw [hin] at hok
      simp [Except.map] at hok
      subst hok
      rcases List.mem_cons.mp hc' with h | h
      · simp at h
      · rcases List.mem_cons.mp h with h' | h'
        · cases h'; exact h2
        · exact ih ts' hin c' h'
    | error e => rw [hin] at hok; simp [Except.map] at hok
  | case8 c s rest2 buf h1 h2 h3 hp =>
    intro ts hok
    rw [tokenizeAux, if_neg h1, if_pos h2, if_neg h3, hp] at hok
    simp at hok
  | case9 c s rest2 buf h1 h2 =>
    intro ts hok
    rw [tokenizeAux, if_neg h1, if_neg h2] at hok
    simp at hok
  | case10 c buf h1 ih =>
    intro ts hok
    rw [tokenizeAux, if_pos h1] at hok
    exact ih ts hok
  | case11 c buf h1 h2 h3 ih =>
    intro ts hok c' hc'
    rw [tokenizeAux, if_neg h1, if_pos h2, if_pos h3] at hok
    cases hin : tokenizeAux [] [] with
    | ok ts' =>
      rw [hin] at hok
      simp [Except.map] at hok
      subst hok
      rcases List.mem_cons.mp hc' with h | h
      · cases h; exact h2
      · exact ih ts' hin c' h
    | error e => rw [hin] at hok; simp [Except.map] at hok
  | case12 c buf h1 h2 h3 num hp ih =>
    intro ts hok c' hc'
    rw [tokenizeAux, if_neg h1, if_pos h2, if_neg h3, hp] at hok
    cases hin : tokenizeAux [] [] with
    | ok ts' =>
      rw [hin] at hok
      simp [Except.map] at hok
      subst hok
      rcases List.mem_cons.mp hc' with h | h
      · simp at h
      · rcases List.mem_cons.mp h with h' | h'
        · cases h'; exact h2
        · exact ih ts' hin c' h'
    | error e => rw [hin] at hok; simp [Except.map] at hok
  | case13 c buf h1 h2 h3 hp =>
    intro ts hok
    rw [tokenizeAux, if_neg h1, if_pos h2, if_neg h3, hp] at hok
    simp at hok
  | case14 c buf h1 h2 =>
    intro ts hok
    rw [tokenizeAux, if_neg h1, if_neg h2] at hok
    simp at hok

end RCalc
namespace RCalc

theorem tokenizeAux_error_form : ∀ cs buf, ∀ m, tokenizeAux cs buf = .error m →
    (∃ b : String, m = "Invalid number: " ++ b) ∨
      (∃ t : String, m = "Invalid character: " ++ t) := by
  intro cs buf
  induction cs, buf using tokenizeAux.induct with
  | case1 buf hbuf =>
    intro m hm
    simp [tokenizeAux, hbuf] at hm
  | case2 buf hbuf num hp =>
    intro m hm
    simp [tokenizeAux, hbuf, hp] at hm
  | case3 buf hbuf hp =>
    intro m hm
    simp [tokenizeAux, hbuf, hp] at hm
    exact Or.inl ⟨String.mk buf, hm.symm⟩
  | case4 c s rest2 buf h1 h2 ih =>
    intro m hm
    rw [tokenizeAux, if_pos h1, if_pos h2] at hm
    exact ih m hm
  | case5 c s rest2 buf h1 h2 ih =>
    intro m hm
    rw [tokenizeAux, if_pos h1, if_neg h2] at hm
    exact ih m hm
  | case6 c s rest2 buf h1 h2 h3 ih =>
    intro m hm
    rw [tokenizeAux, if_neg h1, if_pos h2, if_pos h3] at hm
    cases hin : tokenizeAux (s :: rest2) [] with
    | ok ts' => rw [hin] at hm; simp [Except.map] at hm
    | error e =>
      rw [hin] at hm
      simp [Except.map] at hm
      subst hm
      exact ih e hin
  | case7 c s rest2 buf h1 h2 h3 num hp ih =>
    intro m hm
    rw [tokenizeAux, if_neg h1, if_pos h2, if_neg h3, hp] at hm
    cases hin : tokenizeAux (s :: rest2) [] with
    | ok ts' => rw [hin] at hm; simp [Except.map] at hm
    | error e =>
      rw [hin] at hm
      simp [Except.map] at hm
      subst hm
      exact ih e hin
  | case8 c s rest2 buf h1 h2 h3 hp =>
    intro m hm
    rw [tokenizeAux, if_neg h1, if_pos h2, if_neg h3, hp] at hm
    simp at hm
    exact Or.inl ⟨String.mk buf, hm.symm⟩
  | case9 c s rest2 buf h1 h2 =>
    intro m hm
    rw [tokenizeAux, if_neg h1, if_neg h2] at hm
    simp at hm
    exact Or.inr ⟨String.singleton c, hm.symm⟩
  | case10 c buf h1 ih =>
    intro m hm
    rw [tokenizeAux, if_pos h1] at hm
    exact ih m hm
  | case11 c buf h1 h2 h3 ih =>
    intro m hm
    rw [tokenizeAux, if_neg h1, if_pos h2, if_pos h3] at hm
    cases hin : tokenizeAux [] [] with
    | ok ts' => rw [hin] at hm; simp [Except.map] at hm
    | error e =>
      rw [hin] at hm
      simp [Except.map] at hm
      subst hm
      exact ih e hin
  | case12 c buf h1 h2 h3 num hp ih =>
    intro m hm
    rw [tokenizeAux, if_neg h1, if_pos h2, if_neg h3, hp] at hm
    cases hin : tokenizeAux [] [] with
    | ok ts' => rw [hin] at hm; simp [Except.map] at hm
    | error e =>
      rw [hin] at hm
      simp [Except.map] at hm
      subst hm
      exact ih e hin
  | case13 c buf h1 h2 h3 hp =>
    intro m hm
    rw [tokenizeAux, if_neg h1, if_pos h2, if_neg h3, hp] at hm
    simp at hm
    exact Or.inl ⟨String.mk buf, hm.symm⟩
  | case14 c buf h1 h2 =>
    intro m hm
    rw [tokenizeAux, if_neg h1, if_neg h2] at hm
    simp at hm
    exact Or.inr ⟨String.singleton c, hm.symm⟩

theorem tokenizeAux_invalid : ∀ cs buf, (∃ c ∈ cs, ¬ allowedChar c) →
    (∃ c, ¬ allowedChar c ∧
        tokenizeAux cs buf = .error ("Invalid character: " ++ String.singleton c)) ∨
      (∃ b : String, tokenizeAux cs buf = .error ("Invalid number: " ++ b)) := by
  intro cs buf
  induction cs, buf using tokenizeAux.induct with
  | case1 buf hbuf =>
    intro h
    obtain ⟨c, hc, _⟩ := h
    simp at hc
  | case2 buf hbuf num hp =>
    intro h
    obtain ⟨c, hc, _⟩ := h
    simp at hc
  | case3 buf hbuf hp =>
    intro h
    obtain ⟨c, hc, _⟩ := h
    simp at hc
  | case4 c s rest2 buf h1 h2 ih =>
    intro h
    obtain ⟨x, hx, hxa⟩ := h
    rw [tokenizeAux, if_pos h1, if_pos h2]
    refine ih ⟨x, ?_, hxa⟩
    rcases List.mem_cons.mp hx with rfl | hx'
    · exact absurd (Or.inl h1) hxa
    · rcases List.mem_cons.mp hx' with rfl | hx2
      · exact absurd (Or.inr (by rcases h2.2 with h | h <;> simp [opsChar, h])) hxa
      · exact hx2
  | case5 c s rest2 buf h1 h2 ih =>
    intro h
    obtain ⟨x, hx, hxa⟩ := h
    rw [tokenizeAux, if_pos h1, if_neg h2]
    refine ih ⟨x, ?_, hxa⟩
    rcases List.mem_cons.mp hx with rfl | hx'
    · exact absurd (Or.inl h1) hxa
    · exact hx'
  | case6 c s rest2 buf h1 h2 h3 ih =>
    intro h
    obtain ⟨x, hx, hxa⟩ := h
    rw [tokenizeAux, if_neg h1, if_pos h2, if_pos h3]
    have hrest : ∃ x ∈ s :: rest2, ¬ allowedChar x := by
      rcases List.mem_cons.mp hx with rfl | hx'
      · exact absurd (Or.inr h2) hxa
      · exact ⟨x, hx', hxa⟩
    rcases ih hrest with ⟨c', hc', herr⟩ | ⟨b, herr⟩
    · exact Or.inl ⟨c', hc', by rw [herr]; rfl⟩
    · exact Or.inr ⟨b, by rw [herr]; rfl⟩
  | case7 c s rest2 buf h1 h2 h3 num hp ih =>
    intro h
    obtain ⟨x, hx, hxa⟩ := h
    rw [tokenizeAux, if_neg h1, if_pos h2, if_neg h3, hp]
    have hrest : ∃ x ∈ s :: rest2, ¬ allowedChar x := by
      rcases List.mem_cons.mp hx with rfl | hx'
      · exact absurd (Or.inr h2) hxa
      · exact ⟨x, hx', hxa⟩
    rcases ih hrest with ⟨c', hc', herr⟩ | ⟨b, herr⟩
    · exact Or.inl ⟨c', hc', by rw [herr]; rfl⟩
    · exact Or.inr ⟨b, by rw [herr]; rfl⟩
  | case8 c s rest2 buf h1 h2 h3 hp =>
    intro h
    rw [tokenizeAux, if_neg h1, if_pos h2, if_neg h3, hp]
    exact Or.inr ⟨String.mk buf, rfl⟩
  | case9 c s rest2 buf h1 h2 =>
    intro h
    rw [tokenizeAux, if_neg h1, if_neg h2]
    refine Or.inl ⟨c, ?_, rfl⟩
    intro hc
    rcases hc with hc | hc
    · exact h1 hc
    · exact h2 hc
  | case10 c buf h1 ih =>
    intro h
    obtain ⟨x, hx, hxa⟩ := h
    rcases List.mem_cons.mp hx with rfl | hx'
    · exact absurd (Or.inl h1) hxa
    · simp at hx'
  | case11 c buf h1 h2 h3 ih =>
    intro h
    obtain ⟨x, hx, hxa⟩ := h
    rcases List.mem_cons.mp hx with rfl | hx'
    · exact absurd (Or.inr h2) hxa
    · simp at hx'
  | case12 c buf h1 h2 h3 num hp ih =>
    intro h
    obtain ⟨x, hx, hxa⟩ := h
    rcases List.mem_cons.mp hx with rfl | hx'
    · exact absurd (Or.inr h2) hxa
    · simp at hx'
  | case13 c buf h1 h2 h3 hp =>
    intro h
    rw [tokenizeAux, if_neg h1, if_pos h2, if_neg h3, hp]
    exact Or.inr ⟨String.mk buf, rfl⟩
  | case14 c buf h1 h2 =>
    intro h
    rw [tokenizeAux, if_neg h1, if_neg h2]
    refine Or.inl ⟨c, ?_, rfl⟩
    intro hc
    rcases hc with hc | hc
    · exact h1 hc
    · exact h2 hc

theorem calculateGo_error : ∀ (ts : List Token) (r : F64) (op : Char) (m : String),
    opsChar op → (∀ c, Token.Operator c ∈ ts → opsChar c) →
    calculateGo ts r op = .error m → m = "Division by zero!" := by
  intro ts
  induction ts with
  | nil =>
    intro r op m _ _ h
    simp [calculateGo] at h
  | cons t ts ih =>
    intro r op m hop hops h
    cases t with
    | Operator c =>
      rw [calculateGo] at h
      exact ih r c m (hops c (List.mem_cons_self (Token.Operator c) ts))
        (fun c' hc' => hops c' (List.mem_cons_of_mem _ hc')) h
    | Number n =>
      rw [calculateGo] at h
      have hops' : ∀ c, Token.Operator c ∈ ts → opsChar c :=
        fun c' hc' => hops c' (List.mem_cons_of_mem _ hc')
      rcases hop with rfl | rfl | rfl | rfl
      · rw [show apply_operation r n '+' = .ok (f64Add r n) by
          rw [apply_operation, if_pos rfl]] at h
        exact ih _ _ m (Or.inl rfl) hops' h
      · rw [show apply_operation r n '-' = .ok (f64Sub r n) by
          rw [apply_operation, if_neg (by decide), if_pos rfl]] at h
        exact ih _ _ m (Or.inr (Or.inl rfl)) hops' h
      · rw [show apply_operation r n '*' = .ok (f64Mul r n) by
          rw [apply_operation, if_neg (by decide), if_neg (by decide), if_pos rfl]] at h
        exact ih _ _ m (Or.inr (Or.inr (Or.inl rfl))) hops' h
      · rw [apply_operation_div] at h
        by_cases hz : f64Eq n f64Zero
        · rw [if_pos hz] at h
          simp at h
          exact h.symm
        · rw [if_neg hz] at h
          exact ih _ _ m (Or.inr (Or.inr (Or.inr rfl))) hops' h

end RCalc
namespace RCalc

/-! ## Rounding a representable value is the identity -/

theorem pow2z_fifty_two : pow2z 52 = ((2^52 : ℕ) : ℚ) := by decide

theorem pow2z_fifty_three : pow2z 53 = ((2^53 : ℕ) : ℚ) := by decide

theorem f64ofPosParts_val (s : Bool) (m : ℕ) (e : ℤ)
    (hm1 : 1 ≤ m) (hm2 : m < 2^53) (he1 : -1074 ≤ e) (he2 : e ≤ 971)
    (hnorm : 2^52 ≤ m ∨ e = -1074) :
    f64ofPosParts s ((m : ℚ) * pow2z e) = .finite s m e := by
  have hm0 : (0:ℚ) < (m:ℚ) := by exact_mod_cast hm1
  have ha : 0 < (m : ℚ) * pow2z e := mul_pos hm0 (pow2z_pos e)
  have hcast : (m : ℚ) = ((m : ℤ) : ℚ) := by push_cast; rfl
  by_cases hcase : 2^52 ≤ m
  · -- normal value
    have key_low : pow2z (e + 52) ≤ (m:ℚ) * pow2z e := by
      rw [pow2z_add, mul_comm (pow2z e) (pow2z 52)]
      apply mul_le_mul_of_nonneg_right ?_ (pow2z_pos e).le
      rw [pow2z_fifty_two]
      exact_mod_cast hcase
    have key_high : (m:ℚ) * pow2z e < pow2z (e + 52 + 1) := by
      rw [show e + 52 + 1 = e + 53 by ring, pow2z_add, mul_comm (pow2z e) (pow2z 53)]
      apply mul_lt_mul_of_pos_right ?_ (pow2z_pos e)
      rw [pow2z_fifty_three]
      exact_mod_cast hm2
    have hilog : ilog2 ((m:ℚ) * pow2z e) = e + 52 :=
      ilog2_unique _ (e + 52) ha key_low key_high
    have hsc : (m:ℚ) * pow2z e * pow2z (52 - (e + 52)) = ((m : ℤ) : ℚ) := by
      rw [mul_assoc, ← pow2z_add, show e + (52 - (e + 52)) = 0 by ring]
      norm_num [pow2z]
    simp only [f64ofPosParts, if_neg (not_le.mpr ha), hilog]
    rw [if_neg (by omega : ¬ (e + 52 < -1022)), if_neg (by omega : ¬ (1023 < e + 52)),
      hsc, rhe_intCast, Int.toNat_natCast,
      if_neg (by omega : ¬ (m = 2^53)), show e + 52 - 52 = e by ring]
  · -- subnormal value (or zero exponent boundary)
    have he : e = -1074 := hnorm.resolve_left hcase
    subst he
    have hm2' : m < 2^52 := by omega
    have hsmall : (m:ℚ) * pow2z (-1074) < pow2z (-1022) := by
      rw [show (-1022:ℤ) = 52 + -1074 by ring, pow2z_add]
      apply mul_lt_mul_of_pos_right ?_ (pow2z_pos _)
      rw [pow2z_fifty_two]
      exact_mod_cast hm2'
    have hlt : ilog2 ((m:ℚ) * pow2z (-1074)) < -1022 := by
      by_contra hge
      push_neg at hge
      have h1 := (ilog2_spec _ ha).1
      have h2 := pow2z_le_pow2z hge
      exact absurd (lt_of_le_of_lt (le_trans h2 h1) hsmall) (lt_irrefl _)
    have hsc : (m:ℚ) * pow2z (-1074) * pow2z 1074 = ((m : ℤ) : ℚ) := by
      rw [mul_assoc, ← pow2z_add, show (-1074 : ℤ) + 1074 = 0 by ring]
      norm_num [pow2z]
    simp only [f64ofPosParts, if_neg (not_le.mpr ha)]
    rw [if_pos hlt, hsc, rhe_intCast, Int.toNat_natCast]

/-! ## Parsing the positional rendering -/

theorem munchDigits_all (l : List Char) (hl : ∀ c ∈ l, c.isDigit = true) :
    munchDigits l = (l, []) := by
  induction l with
  | nil => rfl
  | cons c l ih =>
    rw [munchDigits, if_pos (hl c (List.mem_cons_self c l)),
      ih (fun x hx => hl x (List.mem_cons_of_mem c hx))]

theorem munchDigits_append (l : List Char) (c0 : Char) (r : List Char)
    (hl : ∀ c ∈ l, c.isDigit = true) (hc0 : c0.isDigit = false) :
    munchDigits (l ++ c0 :: r) = (l, c0 :: r) := by
  induction l with
  | nil =>
    rw [List.nil_append, munchDigits, if_neg (by simp [hc0])]
  | cons c l ih =>
    rw [List.cons_append, munchDigits,
      if_pos (hl c (List.mem_cons_self c l)),
      ih (fun x hx => hl x (List.mem_cons_of_mem c hx))]

theorem splitSign_render (neg : Bool) (body : List Char)
    (h : ∀ c t, body = c :: t → c ≠ '-' ∧ c ≠ '+') :
    splitSign ((if neg then ['-'] else []) ++ body) = (neg, body) := by
  cases neg with
  | false =>
    rw [if_neg (by simp), List.nil_append]
    cases body with
    | nil => rfl
    | cons c t =>
      obtain ⟨h1, h2⟩ := h c t rfl
      rw [splitSign, if_neg h1, if_neg h2]
  | true =>
    rw [if_pos rfl, List.singleton_append, splitSign, if_pos rfl]

end RCalc
namespace RCalc

theorem isDigit_ne_sign {c : Char} (h : c.isDigit = true) : c ≠ '-' ∧ c ≠ '+' := by
  refine ⟨?_, ?_⟩ <;> (rintro rfl; exact absurd h (by decide))

theorem natDigitChars_ne_nil {n : ℕ} (h : 1 ≤ n) : natDigitChars n ≠ [] := by
  rw [natDigitChars]
  intro hcon
  exact natDigits_ne_nil h (List.map_eq_nil_iff.mp hcon)

theorem pow10z_of_nonneg {e : ℤ} (h : 0 ≤ e) :
    pow10z e = (((10:ℕ) ^ e.toNat : ℕ) : ℚ) := by rw [pow10z, if_pos h]

theorem pow10z_of_neg {e : ℤ} (h : ¬ 0 ≤ e) :
    pow10z e = ((((10:ℕ) ^ (-e).toNat : ℕ) : ℚ))⁻¹ := by rw [pow10z, if_neg h]

/-- Parsing the positional rendering of `n·10^e10` recovers the rounded
value (with the rendered sign). -/
theorem parse_renderPos (neg : Bool) (n : ℕ) (e10 : ℤ) (hn : 1 ≤ n) :
    parseF64Chars (renderPosChars neg n e10) =
      some (f64ofPosParts neg ((n : ℚ) * pow10z e10)) := by
  have hdigs := natDigitChars_isDigit n
  have hval := charsNatVal_natDigitChars n
  have hne : natDigitChars n ≠ [] := natDigitChars_ne_nil hn
  set ds := natDigitChars n with hds
  obtain ⟨d, ds', hcons⟩ := List.exists_cons_of_ne_nil hne
  have hd_digit : d.isDigit = true := hdigs d (by rw [hcons]; exact List.mem_cons_self d ds')
  have hL1 : 1 ≤ ds.length := by rw [hcons]; simp
  rw [renderPosChars, renderBody, ← hds]
  by_cases hpos : 0 ≤ e10
  · -- shape (i): digits followed by e10 zeros, no decimal point
    rw [if_pos hpos]
    have hbody : ds ++ List.replicate e10.toNat '0' =
        d :: (ds' ++ List.replicate e10.toNat '0') := by rw [hcons, List.cons_append]
    have halldig : ∀ c ∈ ds ++ List.replicate e10.toNat '0', c.isDigit = true := by
      intro c hc
      rcases List.mem_append.mp hc with hc | hc
      · exact hdigs c hc
      · rw [List.eq_of_mem_replicate hc]; decide
    have hsplit : splitSign ((if neg then ['-'] else []) ++
        (ds ++ List.replicate e10.toNat '0')) =
        (neg, ds ++ List.replicate e10.toNat '0') := by
      apply splitSign_render
      intro c t hct
      rw [hbody] at hct
      have := (List.cons.injEq _ _ _ _).mp hct
      exact this.1 ▸ isDigit_ne_sign hd_digit
    have hmunch : munchDigits (ds ++ List.replicate e10.toNat '0') =
        (ds ++ List.replicate e10.toNat '0', []) := munchDigits_all _ halldig
    have hdot : splitDot ([] : List Char) = ([], []) := rfl
    have hemp : (ds ++ List.replicate e10.toNat '0').isEmpty = false := by
      rw [hbody]; rfl
    simp only [parseF64Chars, hsplit, hmunch, hdot, hemp, Bool.false_and,
      if_neg (by simp : ¬ (false = true))]
    congr 2
    rw [ratOfParts, charsNatVal_append, charsNatVal_replicate_zero, hval,
      List.length_replicate, pow10z_of_nonneg hpos,
      show charsNatVal ([] : List Char) = 0 from rfl,
      show pow10z 0 = 1 by decide, List.length_nil]
    push_cast
    ring
  · -- e10 < 0: a decimal point is inserted
    rw [if_neg hpos]
    by_cases hlen : ds.length ≤ (-e10).toNat
    · -- shape (ii): 0.00…0digits
      rw [if_pos hlen]
      have halldig : ∀ c ∈ List.replicate ((-e10).toNat - ds.length) '0' ++ ds,
          c.isDigit = true := by
        intro c hc
        rcases List.mem_append.mp hc with hc | hc
        · rw [List.eq_of_mem_replicate hc]; decide
        · exact hdigs c hc
      have hsplit : splitSign ((if neg then ['-'] else []) ++
          ('0' :: '.' :: (List.replicate ((-e10).toNat - ds.length) '0' ++ ds))) =
          (neg, '0' :: '.' :: (List.replicate ((-e10).toNat - ds.length) '0' ++ ds)) := by
        apply splitSign_render
        intro c t hct
        have := (List.cons.injEq _ _ _ _).mp hct
        rw [← this.1]
        exact ⟨by decide, by decide⟩
      have hmunch : munchDigits ('0' :: '.' ::
          (List.replicate ((-e10).toNat - ds.length) '0' ++ ds)) =
          (['0'], '.' :: (List.replicate ((-e10).toNat - ds.length) '0' ++ ds)) := by
        have := munchDigits_append ['0'] '.'
          (List.replicate ((-e10).toNat - ds.length) '0' ++ ds)
          (by intro c hc; simp at hc; rw [hc]; decide) (by decide)
        simpa using this
      have hdot : splitDot ('.' :: (List.replicate ((-e10).toNat - ds.length) '0' ++ ds)) =
          (List.replicate ((-e10).toNat - ds.length) '0' ++ ds, []) := by
        rw [splitDot, if_pos rfl]
        exact munchDigits_all _ halldig
      simp only [parseF64Chars, hsplit, hmunch, hdot]
      simp only [List.isEmpty_cons, Bool.false_and, if_neg (by simp : ¬ (false = true))]
      congr 2
      rw [ratOfParts, charsNatVal_append, charsNatVal_replicate_zero, hval,
        List.length_append, List.length_replicate,
        show charsNatVal ['0'] = 0 by decide,
        pow10z_of_neg hpos,
        show (-e10).toNat - ds.length + ds.length = (-e10).toNat by omega,
        show pow10z 0 = 1 by decide]
      push_cast
      rw [div_eq_mul_inv]
      ring
    · -- shape (iii): point inserted inside the digit string
      rw [if_neg hlen]
      have hk1 : 1 ≤ (-e10).toNat := by
        rcases Int.lt_iff_add_one_le.mp (not_le.mp hpos) with h
        omega
      obtain ⟨p, hp'⟩ : ∃ p, ds.length - (-e10).toNat = p + 1 :=
        ⟨ds.length - (-e10).toNat - 1, by omega⟩
      have htake : ds.take (ds.length - (-e10).toNat) = d :: ds'.take p := by
        rw [hp', hcons, List.take_succ_cons]
      have htakedig : ∀ c ∈ ds.take (ds.length - (-e10).toNat), c.isDigit = true :=
        fun c hc => hdigs c (List.take_subset _ _ hc)
      have hdropdig : ∀ c ∈ ds.drop (ds.length - (-e10).toNat), c.isDigit = true :=
        fun c hc => hdigs c (List.drop_subset _ _ hc)
      have hsplit : splitSign ((if neg then ['-'] else []) ++
          (ds.take (ds.length - (-e10).toNat) ++
            '.' :: ds.drop (ds.length - (-e10).toNat))) =
          (neg, ds.take (ds.length - (-e10).toNat) ++
            '.' :: ds.drop (ds.length - (-e10).toNat)) := by
        apply splitSign_render
        intro c t hct
        rw [htake, List.cons_append] at hct
        have := (List.cons.injEq _ _ _ _).mp hct
        exact this.1 ▸ isDigit_ne_sign hd_digit
      have hmunch : munchDigits (ds.take (ds.length - (-e10).toNat) ++
          '.' :: ds.drop (ds.length - (-e10).toNat)) =
          (ds.take (ds.length - (-e10).toNat),
            '.' :: ds.drop (ds.length - (-e10).toNat)) :=
        munchDigits_append _ '.' _ htakedig (by decide)
      have hdot : splitDot ('.' :: ds.drop (ds.length - (-e10).toNat)) =
          (ds.drop (ds.length - (-e10).toNat), []) := by
        rw [splitDot, if_pos rfl]
        exact munchDigits_all _ hdropdig
      have hemp : (ds.take (ds.length - (-e10).toNat)).isEmpty = false := by
        rw [htake]; rfl
      simp only [parseF64Chars, hsplit, hmunch, hdot, hemp, Bool.false_and,
        if_neg (by simp : ¬ (false = true))]
      congr 2
      have hsum : charsNatVal (ds.take (ds.length - (-e10).toNat)) *
          10 ^ ((-e10).toNat) + charsNatVal (ds.drop (ds.length - (-e10).toNat)) = n := by
        have h := charsNatVal_append (ds.take (ds.length - (-e10).toNat))
          (ds.drop (ds.length - (-e10).toNat))
        rw [List.take_append_drop, hval, List.length_drop,
          show ds.length - (ds.length - (-e10).toNat) = (-e10).toNat by omega] at h
        exact h.symm
      rw [ratOfParts, List.length_drop,
        show ds.length - (ds.length - (-e10).toNat) = (-e10).toNat by omega,
        pow10z_of_neg hpos, show pow10z 0 = 1 by decide]
      have h10 : (((10:ℕ) ^ (-e10).toNat : ℕ) : ℚ) ≠ 0 := by
        push_cast
        positivity
      field_simp
      push_cast [← hsum]
      ring
end RCalc
namespace RCalc

/-! ## The rendered string has no exponent marker and no trailing zero -/

theorem mem_natDigitChars_ne_e {n : ℕ} {c : Char} (h : c ∈ natDigitChars n) : c ≠ 'e' := by
  obtain ⟨d, _, rfl⟩ := List.mem_map.mp h
  exact digitChar_ne_e d

theorem renderPos_not_mem_e (neg : Bool) (n : ℕ) (e10 : ℤ) :
    'e' ∉ renderPosChars neg n e10 := by
  intro hmem
  rw [renderPosChars] at hmem
  rcases List.mem_append.mp hmem with h | h
  · cases neg <;> simp at h
  · rw [renderBody] at h
    split at h
    · rcases List.mem_append.mp h with h | h
      · exact mem_natDigitChars_ne_e h rfl
      · exact absurd (List.eq_of_mem_replicate h) (by decide)
    · split at h
      · rcases List.mem_cons.mp h with h | h
        · exact absurd h (by decide)
        · rcases List.mem_cons.mp h with h | h
          · exact absurd h (by decide)
          · rcases List.mem_append.mp h with h | h
            · exact absurd (List.eq_of_mem_replicate h) (by decide)
            · exact mem_natDigitChars_ne_e h rfl
      · rcases List.mem_append.mp h with h | h
        · exact mem_natDigitChars_ne_e (List.take_subset _ _ h) rfl
        · rcases List.mem_cons.mp h with h | h
          · exact absurd h (by decide)
          · exact mem_natDigitChars_ne_e (List.drop_subset _ _ h) rfl

theorem mem_natDigitChars_ne_dot {n : ℕ} {c : Char} (h : c ∈ natDigitChars n) :
    c ≠ '.' := by
  obtain ⟨d, _, rfl⟩ := List.mem_map.mp h
  exact digitChar_ne_dot d

theorem renderPos_not_mem_dot (neg : Bool) (n : ℕ) (e10 : ℤ) (hp : 0 ≤ e10) :
    '.' ∉ renderPosChars neg n e10 := by
  intro hmem
  rw [renderPosChars] at hmem
  rcases List.mem_append.mp hmem with h | h
  · cases neg <;> simp at h
  · rw [renderBody, if_pos hp] at h
    rcases List.mem_append.mp h with h | h
    · exact mem_natDigitChars_ne_dot h rfl
    · exact absurd (List.eq_of_mem_replicate h) (by decide)

theorem natDigits_getLast (n : ℕ) (h : 1 ≤ n) :
    (natDigits n).getLast? = some (n % 10) := by
  rw [natDigits, List.getLast?_reverse]
  obtain ⟨f, rfl⟩ : ∃ f, n = f + 1 := ⟨n - 1, by omega⟩
  rw [digitsRevAux, if_neg (by omega)]
  rfl

theorem natDigitChars_getLast (n : ℕ) (h : 1 ≤ n) :
    (natDigitChars n).getLast? = some (digitChar (n % 10)) := by
  rw [natDigitChars, List.getLast?_map, natDigits_getLast n h]
  rfl

theorem renderPos_getLast (neg : Bool) (n : ℕ) (e10 : ℤ) (hn : 1 ≤ n)
    (hpos : ¬ 0 ≤ e10) :
    (renderPosChars neg n e10).getLast? = some (digitChar (n % 10)) := by
  have hne : natDigitChars n ≠ [] := natDigitChars_ne_nil hn
  rw [renderPosChars, renderBody, if_neg hpos]
  by_cases hlen : (natDigitChars n).length ≤ (-e10).toNat
  · rw [if_pos hlen]
    rw [List.getLast?_append_of_ne_nil _
      (by simp [hne] : ('0' :: '.' :: (List.replicate ((-e10).toNat - (natDigitChars n).length) '0' ++ natDigitChars n)) ≠ [])]
    rw [show ('0' :: '.' :: (List.replicate ((-e10).toNat - (natDigitChars n).length) '0' ++ natDigitChars n)) = ['0', '.'] ++ (List.replicate ((-e10).toNat - (natDigitChars n).length) '0' ++ natDigitChars n) from rfl]
    rw [List.getLast?_append_of_ne_nil _ (by simp [hne])]
    rw [List.getLast?_append_of_ne_nil _ hne]
    exact natDigitChars_getLast n hn
  · rw [if_neg hlen]
    have hdropne : (natDigitChars n).drop ((natDigitChars n).length - (-e10).toNat) ≠ [] := by
      intro hcon
      have := congrArg List.length hcon
      rw [List.length_drop] at this
      simp at this
      omega
    rw [List.getLast?_append_of_ne_nil _ (by simp [hdropne])]
    rw [List.getLast?_append_of_ne_nil _ (by simp [hdropne] :
      ('.' :: (natDigitChars n).drop ((natDigitChars n).length - (-e10).toNat)) ≠ [])]
    rw [show ('.' :: (natDigitChars n).drop ((natDigitChars n).length - (-e10).toNat)) = ['.'] ++ (natDigitChars n).drop ((natDigitChars n).length - (-e10).toNat) from rfl]
    rw [List.getLast?_append_of_ne_nil _ hdropne]
    have := List.getLast?_append_of_ne_nil
      ((natDigitChars n).take ((natDigitChars n).length - (-e10).toNat)) hdropne
    rw [List.take_append_drop] at this
    rw [← this]
    exact natDigitChars_getLast n hn

theorem trimZeros_renderPos (neg : Bool) (n : ℕ) (e10 : ℤ) (hn : 1 ≤ n)
    (hnd : ¬ (10 ∣ n)) :
    trimZerosChars (renderPosChars neg n e10) = renderPosChars neg n e10 := by
  by_cases hpos : 0 ≤ e10
  · have hnotmem := renderPos_not_mem_dot neg n e10 hpos
    rw [trimZerosChars, if_neg (fun hc => hnotmem (List.elem_iff.mp hc))]
  · have hmod : n % 10 ≠ 0 := fun h => hnd (Nat.dvd_of_mod_eq_zero h)
    have hlast_ne0 : digitChar (n % 10) ≠ '0' :=
      digitChar_ne_zeroChar (Nat.mod_lt _ (by norm_num)) hmod
    have hlast_nedot : digitChar (n % 10) ≠ '.' := digitChar_ne_dot _
    have hrev : (renderPosChars neg n e10).reverse.head? = some (digitChar (n % 10)) := by
      rw [List.head?_reverse]
      exact renderPos_getLast neg n e10 hn hpos
    obtain ⟨t, ht⟩ : ∃ t, (renderPosChars neg n e10).reverse = digitChar (n % 10) :: t := by
      cases hh : (renderPosChars neg n e10).reverse with
      | nil => rw [hh] at hrev; simp at hrev
      | cons a t =>
        rw [hh] at hrev
        simp at hrev
        exact ⟨t, by rw [hrev]⟩
    have hdrop : (renderPosChars neg n e10).reverse.dropWhile (fun x => x = '0') =
        (renderPosChars neg n e10).reverse := by
      rw [ht, List.dropWhile_cons]
      simp [hlast_ne0]
    rw [trimZerosChars]
    by_cases hcont : (renderPosChars neg n e10).contains '.'
    · rw [if_pos hcont, hdrop,
        if_neg (by rw [hrev]; simp [hlast_nedot]), List.reverse_reverse]
    · rw [if_neg hcont]

/-! ## The searched digits reproduce the double -/

theorem exactDigits_val (m : ℕ) (e : ℤ) :
    ((exactDigits m e).1 : ℚ) * pow10z (exactDigits m e).2 = (m:ℚ) * pow2z e := by
  rw [exactDigits]
  split
  · next h =>
    rw [show pow10z 0 = 1 by decide, pow2z, if_pos h]
    push_cast
    ring
  · next h =>
    rw [pow10z_of_neg h, pow2z, if_neg h]
    have h2 : (((2:ℕ) ^ (-e).toNat : ℕ) : ℚ) ≠ 0 := by positivity
    have h10 : (((10:ℕ) ^ (-e).toNat : ℕ) : ℚ) ≠ 0 := by positivity
    field_simp
    rw [show (10:ℚ) = 2 * 5 by norm_num, mul_pow]
    ring

theorem exactDigits_pos (m : ℕ) (e : ℤ) (hm : 1 ≤ m) : 1 ≤ (exactDigits m e).1 := by
  rw [exactDigits]
  split <;> exact Nat.mul_pos hm (pow_pos (by norm_num) _)

theorem searchDigits_spec (s : Bool) (m : ℕ) (e : ℤ) (a : ℚ) (d : ℤ)
    (hwf : wfB (.finite s m e) = true) (hm : 1 ≤ m) : ∀ ks : List ℕ,
    f64ofPosParts s
        (((searchDigits (.finite s m e) a d ks).1 : ℚ) *
          pow10z (searchDigits (.finite s m e) a d ks).2) = .finite s m e
      ∧ 1 ≤ (searchDigits (.finite s m e) a d ks).1 := by
  simp only [wfB, Bool.and_eq_true, Bool.or_eq_true, decide_eq_true_eq] at hwf
  obtain ⟨⟨⟨hm2, he1⟩, he2⟩, hnorm⟩ := hwf
  intro ks
  induction ks with
  | nil =>
    simp only [searchDigits]
    rw [exactDigits_val]
    exact ⟨f64ofPosParts_val s m e hm hm2 he1 he2 hnorm, exactDigits_pos m e hm⟩
  | cons k ks ih =>
    rw [searchDigits]
    split
    · next h =>
      simp only [F64.negBit] at h
      constructor
      · exact h
      · by_contra h0
        push_neg at h0
        have hz : (sigCand a d k).1 = 0 := by omega
        rw [hz, Nat.cast_zero, zero_mul] at h
        rw [f64ofPosParts, if_pos le_rfl] at h
        have := (F64.finite.injEq _ _ _ _ _ _).mp h
        omega
    · next h => exact ih

theorem shortestDigits_spec (s : Bool) (m : ℕ) (e : ℤ)
    (hwf : wfB (.finite s m e) = true) (hm : 1 ≤ m) :
    f64ofPosParts s (((shortestDigits (.finite s m e)).1 : ℚ) *
        pow10z (shortestDigits (.finite s m e)).2) = .finite s m e
      ∧ 1 ≤ (shortestDigits (.finite s m e)).1
      ∧ ¬ (10 ∣ (shortestDigits (.finite s m e)).1) := by
  obtain ⟨h1, h2⟩ := searchDigits_spec s m e |(F64.finite s m e).val|
    (ilog10 |(F64.finite s m e).val|) hwf hm
    [1,2,3,4,5,6,7,8,9,10,11,12,13,14,15,16,17]
  simp only [shortestDigits]
  refine ⟨?_, stripZeros_pos _ h2, stripZeros_ndvd _ h2⟩
  rw [stripZeros_val]
  exact h1

end RCalc
namespace RCalc

/-- Parsing the output of `format_full_decimal` on the non-scientific band
recovers the double exactly. -/
theorem format_regular_roundtrip (x : F64) (hwf : wfB x = true)
    (h1 : c1em6 ≤ |x.val|) (h2 : |x.val| < c1e16) :
    parseF64Chars (format_full_decimal x).data = some x := by
  have hc : (0:ℚ) < c1em6 := by decide
  cases x with
  | nan =>
    exfalso
    rw [show F64.nan.val = 0 from rfl, abs_zero] at h1
    linarith
  | inf s =>
    exfalso
    rw [show (F64.inf s).val = 0 from rfl, abs_zero] at h1
    linarith
  | finite s m e =>
    by_cases hm : m = 0
    · exfalso
      have hv : (F64.finite s m e).val = 0 := by rw [hm]; simp [F64.val]
      rw [hv, abs_zero] at h1
      linarith
    · have hm1 : 1 ≤ m := by omega
      obtain ⟨hrt, hpos1, hnd⟩ := shortestDigits_spec s m e hwf hm1
      have hdisp : displayChars (.finite s m e) =
          renderPosChars s (shortestDigits (.finite s m e)).1
            (shortestDigits (.finite s m e)).2 := by
        rw [displayChars, if_neg hm]
      have hnoe : (displayChars (.finite s m e)).contains 'e' = false := by
        rw [hdisp]
        exact Bool.eq_false_iff.mpr
          (fun hc' => renderPos_not_mem_e _ _ _ (List.elem_iff.mp hc'))
      have hformat : format_full_decimal (.finite s m e) =
          format_regular_number (.finite s m e) := by
        rw [format_full_decimal]
        rw [if_neg (by simp [F64.isNan]), if_neg (by simp [F64.isInfinite])]
        rw [if_pos ⟨h2, h1, by rw [hnoe]; simp⟩]
      rw [hformat, format_regular_number, hdisp]
      rw [trimZeros_renderPos s _ _ hpos1 hnd]
      show parseF64Chars (renderPosChars s (shortestDigits (.finite s m e)).1
        (shortestDigits (.finite s m e)).2) = some (.finite s m e)
      rw [parse_renderPos s _ _ hpos1]
      rw [hrt]

end RCalc
namespace RCalc

/-! # The claims -/

/-- Claim C1: the formatter renders values outside the non-scientific band
exactly via arbitrary-precision integer arithmetic: on the double nearest
to 10²⁰ (which is 10²⁰ itself) `format_full_decimal` returns the
21-character string "100000000000000000000", and on the double nearest to
10⁻²⁰ it returns "0.00000000000000000001". -/
theorem claim_scientific_range_exactness :
    format_full_decimal (f64ofPosParts false ((10:ℚ)^20)) = "100000000000000000000"
    ∧ ("100000000000000000000" : String).length = 21
    ∧ format_full_decimal (f64ofPosParts false (1/(10:ℚ)^20)) = "0.00000000000000000001" :=
  ⟨by decide, by decide, by decide⟩

/-- Claim C2: for every well-formed double whose magnitude lies in the band
`[1e-6, 1e16)` (the constants being the doubles the source compares
against), re-parsing the string `format_full_decimal` produces recovers
the double exactly. -/
theorem claim_roundtrip_nonscientific (x : F64) (hwf : wfB x = true)
    (h1 : c1em6 ≤ |x.val|) (h2 : |x.val| < c1e16) :
    parseF64Chars (format_full_decimal x).data = some x :=
  format_regular_roundtrip x hwf h1 h2

theorem claim_roundtrip_nonscientific_witness :
    parseF64Chars (format_full_decimal (f64ofPosParts false (5/2))).data =
      some (f64ofPosParts false (5/2)) :=
  claim_roundtrip_nonscientific (f64ofPosParts false (5/2))
    (by decide) (by decide) (by decide)

/-- Claim C3: `format_full_decimal` maps NaN to "NaN" (NaN payloads are a
single value in this model, as the code only observes `is_nan`), positive
infinity to "Infinity", and negative infinity to "-Infinity". -/
theorem claim_special_values :
    format_full_decimal .nan = "NaN"
    ∧ format_full_decimal (.inf false) = "Infinity"
    ∧ format_full_decimal (.inf true) = "-Infinity" :=
  ⟨by decide, by decide, by decide⟩

/-- Claim C4: the evaluator is a strict left fold with accumulator `0.0` and
pending operator `'+'`: an `Operator` token replaces the pending operator,
a `Number` token applies it immediately, with no precedence; in
particular `"2+3*4"` evaluates to `20.0`, not `14.0`. -/
theorem claim_left_fold_no_precedence :
    (∀ ts : List Token, calculate ts = evalFoldSpec ts)
    ∧ evaluate_expression "2+3*4" = .ok (f64ofPosParts false 20)
    ∧ evaluate_expression "2+3*4" ≠ .ok (f64ofPosParts false 14) := by
  refine ⟨?_, by decide, by decide⟩
  intro ts
  rw [calculate, evalFoldSpec]
  exact calculateGo_eq_foldl ts f64Zero '+'

/-- Claim C5: a leading `'-'` is tokenized as an `Operator` token (not unary
negation), so `"-5+3"` is evaluated against the implicit zero accumulator
as `0 - 5 + 3 = -2`. -/
theorem claim_leading_minus_is_operator :
    tokenize "-5+3" = .ok [Token.Operator '-', Token.Number (f64ofPosParts false 5),
      Token.Operator '+', Token.Number (f64ofPosParts false 3)]
    ∧ evaluate_expression "-5+3" = .ok (f64ofPosParts true 2)
    ∧ (f64ofPosParts true 2).val = -2 :=
  ⟨by decide, by decide, by decide⟩

/-- Claim C6: applying `'/'` with a right operand equal to `0.0` (in the
IEEE sense, so also `-0.0`) fails with the "Division by zero!" error and
produces no value; with any right operand not equal to `0.0` the division
succeeds. -/
theorem claim_division_by_zero_guard (l r : F64) :
    (f64Eq r f64Zero = true → apply_operation l r '/' = .error "Division by zero!")
    ∧ (f64Eq r f64Zero = false → apply_operation l r '/' = .ok (f64Div l r)) := by
  constructor <;> intro h <;> rw [apply_operation_div, h] <;> simp

theorem claim_division_by_zero_guard_witness :
    apply_operation (f64ofPosParts false 5) f64Zero '/' = .error "Division by zero!"
    ∧ apply_operation (f64ofPosParts false 5) (f64ofPosParts false 2) '/' =
        .ok (f64Div (f64ofPosParts false 5) (f64ofPosParts false 2)) :=
  ⟨(claim_division_by_zero_guard (f64ofPosParts false 5) f64Zero).1 (by decide),
   (claim_division_by_zero_guard (f64ofPosParts false 5) (f64ofPosParts false 2)).2
     (by decide)⟩

/-- Claim C7: an `'e'`/`'E'` immediately followed by `'+'` or `'-'` consumes
the sign into the pending numeric literal, so `"1e+5"` and `"2e-3"` each
tokenize to a single `Number` token and no `Operator` token. -/
theorem claim_exponent_sign_consumed :
    tokenize "1e+5" = .ok [Token.Number (f64ofPosParts false 100000)]
    ∧ tokenize "2e-3" = .ok [Token.Number (f64ofPosParts false (1/500))] :=
  ⟨by decide, by decide⟩

/-- Claim C8, counterexample: the input `"..+x"` contains the invalid
character `'x'`, yet tokenization fails with the Invalid number error for
the malformed literal `".."` reached first, not with an Invalid character
error naming `'x'`. -/
theorem claim_invalid_character_counterexample :
    (¬ allowedChar 'x') ∧ 'x' ∈ ("..+x" : String).data
    ∧ tokenize "..+x" = .error "Invalid number: .."
    ∧ tokenize "..+x" ≠ .error "Invalid character: x" :=
  ⟨by decide, by decide, by decide, by decide⟩

/-- Claim C8, amended: for every input containing a character that is not a
digit, `'.'`, `'e'`/`'E'`, a sign, or an operator, tokenization fails —
with the Invalid character error naming an invalid character, unless a
malformed numeric literal is finalized first, in which case with that
Invalid number error.  (An error carries no token sequence.) -/
theorem claim_invalid_character_amended (s : String)
    (h : ∃ c ∈ s.data, ¬ allowedChar c) :
    (∃ c, ¬ allowedChar c ∧
        tokenize s = .error ("Invalid character: " ++ String.singleton c))
    ∨ (∃ b : String, tokenize s = .error ("Invalid number: " ++ b)) :=
  tokenizeAux_invalid s.data [] h

theorem claim_invalid_character_amended_witness :
    (∃ c, ¬ allowedChar c ∧
        tokenize "2a" = .error ("Invalid character: " ++ String.singleton c))
    ∨ (∃ b : String, tokenize "2a" = .error ("Invalid number: " ++ b)) :=
  claim_invalid_character_amended "2a" (by decide)

/-- Claim C9: the evaluator independently guards non-arithmetic operator
symbols with the "Invalid operator" error, but that branch is unreachable
through the public pipeline: every error `evaluate_expression` returns is
a tokenizer error ("Invalid number"/"Invalid character") or "Division by
zero!", never an "Invalid operator" message. -/
theorem claim_invalid_operator_unreachable :
    (apply_operation f64Zero f64Zero '%' = .error "Invalid operator: %")
    ∧ (∀ s m : String, evaluate_expression s = .error m →
        ∀ t : String, m ≠ "Invalid operator: " ++ t) := by
  constructor
  · decide
  · intro s m hm t heq
    cases htok : tokenize s with
    | error m2 =>
      have hev : evaluate_expression s = .error m2 := by
        rw [evaluate_expression, htok]
      rw [hev] at hm
      have hm2 : m2 = m := by simpa using hm
      subst hm2
      rcases tokenizeAux_error_form s.data [] m2 htok with ⟨b, hb⟩ | ⟨u, hu⟩
      · exact invalid_number_ne_invalid_operator b t (hb.symm.trans heq)
      · exact invalid_character_ne_invalid_operator u t (hu.symm.trans heq)
    | ok ts =>
      have hev : evaluate_expression s = calculate ts := by
        rw [evaluate_expression, htok]
      rw [hev] at hm
      have hdz := calculateGo_error ts f64Zero '+' m (Or.inl rfl)
        (tokenizeAux_ok_ops s.data [] ts htok) hm
      exact division_by_zero_ne_invalid_operator t (hdz.symm.trans heq)

theorem claim_invalid_operator_unreachable_witness :
    ("Division by zero!" : String) ≠ "Invalid operator: " ++ "%" :=
  claim_invalid_operator_unreachable.2 "5/0" "Division by zero!" (by decide) "%"

/-- Claim C10: `format_full_decimal` returns exactly "0" on both zeros; the
magnitude falls below the 1e-6 band bound, so both take the scientific
BigInt path, and the sign of `-0.0` is dropped because the reparsed
mantissa `-0.0` satisfies the `mantissa >= 0.0` test. -/
theorem claim_zero_formats_unsigned :
    format_full_decimal (F64.finite false 0 (-1074)) = "0"
    ∧ format_full_decimal (F64.finite true 0 (-1074)) = "0"
    ∧ f64Ge (F64.finite true 0 (-1074)) f64Zero = true :=
  ⟨by decide, by decide, by decide⟩

end RCalc
